import Mathlib

/-!
Shallow embedding of the 8-puzzle solver in src/1_a_sharp/main.py.

The Python class EFPState carries a 3x3 matrix of digits, an integer
distance_to_end, a reference end_state to the goal state, and a reference
prev_state to the state it was expanded from.  In-place mutation of those
attributes is modelled by functional update; the end_state attribute is only
ever read through its matrix, so the embedding stores the goal matrix there.
Python exceptions are modelled by the Except monad.
-/

/-- Exceptions raised by the Python code: the InvalidMoveDirection class,
IndexError from list indexing, and RuntimeError from get_index or a missing
move direction. -/
inductive PyError where
  | invalidMoveDirection
  | indexError
  | runtimeError
deriving DecidableEq, Repr

/-- The four move directions accepted by EFPState.move via its l, r, u, d
keyword flags (every call site passes exactly one of them). -/
inductive Dir where
  | l
  | r
  | u
  | d
deriving DecidableEq, Repr

/-- The EFPState class of main.py. -/
inductive EFPState where
  | mk (matrix : List (List Nat)) (distance_to_end : Int)
      (end_state : Option (List (List Nat))) (prev_state : Option EFPState)
deriving Repr

def EFPState.matrix : EFPState → List (List Nat)
  | .mk m _ _ _ => m

def EFPState.distance_to_end : EFPState → Int
  | .mk _ d _ _ => d

def EFPState.end_state : EFPState → Option (List (List Nat))
  | .mk _ _ e _ => e

def EFPState.prev_state : EFPState → Option EFPState
  | .mk _ _ _ p => p

/-- Assignment to the distance_to_end attribute. -/
def EFPState.withDist (st : EFPState) (d : Int) : EFPState :=
  .mk st.matrix d st.end_state st.prev_state

/-- Assignment to the end_state attribute. -/
def EFPState.withEnd (st : EFPState) (e : Option (List (List Nat))) : EFPState :=
  .mk st.matrix st.distance_to_end e st.prev_state

/-- Assignment to the prev_state attribute. -/
def EFPState.withPrev (st : EFPState) (p : Option EFPState) : EFPState :=
  .mk st.matrix st.distance_to_end st.end_state p

/-- Replacement of the matrix contents. -/
def EFPState.withMatrix (st : EFPState) (m : List (List Nat)) : EFPState :=
  .mk m st.distance_to_end st.end_state st.prev_state

/-- The constructor splits the flat sequence into the rows sequence[0:3],
sequence[3:6] and sequence[6:9]. -/
def matrixOf (sequence : List Nat) : List (List Nat) :=
  [sequence.take 3, (sequence.drop 3).take 3, (sequence.drop 6).take 3]

/-- EFPState.to_sequence: concatenate the rows of the matrix. -/
def EFPState.to_sequence (st : EFPState) : List Nat :=
  st.matrix.flatten

/-- count_inversions of main.py: the two nested index loops count, for each
position i, the number of later positions j with arr[i] greater than arr[j]. -/
def count_inversions : List Nat → Nat
  | [] => 0
  | x :: xs => xs.countP (fun y => decide (y < x)) + count_inversions xs

/-- Modelled from the spec: the count of pairs (i, j), i before j in the
flattened reading order, with both values nonzero, where value i is greater
than value j.  Written from the words of the spec, for comparison with
count_inversions above. -/
def spec_inversions : List Nat → Nat
  | [] => 0
  | x :: xs =>
      (if x = 0 then 0 else xs.countP (fun y => decide (y ≠ 0) && decide (y < x)))
        + spec_inversions xs

/-- Reading matrix[i][j], with failure (Python IndexError) when out of range. -/
def cell (m : List (List Nat)) (i j : Nat) : Option Nat :=
  (m.get? i).bind fun row => row.get? j

/-- The row-major traversal order of the two nested loops for i in range(3),
for j in range(3). -/
def cellList : List (Nat × Nat) :=
  [(0, 0), (0, 1), (0, 2), (1, 0), (1, 1), (1, 2), (2, 0), (2, 1), (2, 2)]

/-- The scanning loop of EFPState.get_index over a list of cell coordinates:
return the first coordinate holding the value, RuntimeError when the scan
finishes without a match. -/
def get_index_go (m : List (List Nat)) (value : Nat) :
    List (Nat × Nat) → Except PyError (Nat × Nat)
  | [] => .error .runtimeError
  | c :: cs =>
    match cell m c.1 c.2 with
    | none => .error .indexError
    | some x => if x = value then .ok c else get_index_go m value cs

/-- EFPState.get_index on a bare matrix. -/
def get_indexM (m : List (List Nat)) (value : Nat) : Except PyError (Nat × Nat) :=
  get_index_go m value cellList

/-- EFPState.get_index: 2-dimensional index of a value in the matrix. -/
def EFPState.get_index (st : EFPState) (value : Nat) : Except PyError (Nat × Nat) :=
  get_indexM st.matrix value

/-- Python hashes a board as the hash of the 9-tuple of its cells.  The CPython
tuple hash is implementation defined; the embedding models it by an injective
encoding of the sequence, so that hash equality coincides with sequence
equality (the collision-freedom assumption of the embedding). -/
def tupleHash : List Nat → Nat
  | [] => 0
  | x :: xs => Nat.pair x (tupleHash xs) + 1

/-- EFPState.__eq__: self == value compares the hash of value with the hash of
self. -/
def pyEq (self value : EFPState) : Bool :=
  tupleHash value.to_sequence == tupleHash self.to_sequence

/-- abs of the difference of two natural coordinates, as computed on Python
ints. -/
def adiff (a b : Nat) : Nat :=
  ((a : Int) - (b : Int)).natAbs

/-- The accumulation loop of EFPState.distance over the traversal order: skip
zero cells, look the value up in the other matrix, and add the Manhattan
distance of the two coordinates. -/
def distance_go (selfM otherM : List (List Nat)) :
    List (Nat × Nat) → Except PyError Nat
  | [] => .ok 0
  | c :: cs =>
    match cell selfM c.1 c.2 with
    | none => .error .indexError
    | some value =>
      if value = 0 then distance_go selfM otherM cs
      else
        match get_indexM otherM value with
        | .error e => .error e
        | .ok coor =>
          (distance_go selfM otherM cs).map fun rest =>
            adiff coor.2 c.2 + adiff coor.1 c.1 + rest

/-- EFPState.distance on bare matrices. -/
def distanceM (selfM otherM : List (List Nat)) : Except PyError Nat :=
  distance_go selfM otherM cellList

/-- EFPState.distance: sum over the nonzero cells of self of the Manhattan
distance between the position of the value in self and in other. -/
def EFPState.distance (st other : EFPState) : Except PyError Nat :=
  distanceM st.matrix other.matrix

/-- EFPState.update_distance_to_end: recompute distance_to_end against
end_state, or set it to -1 when no end_state is set. -/
def EFPState.update_distance_to_end (st : EFPState) : Except PyError EFPState :=
  match st.end_state with
  | some em => (distanceM st.matrix em).map fun d => st.withDist (Int.ofNat d)
  | none => .ok (st.withDist (-1))

/-- Reading matrix[i][j] as done by __getitem__ inside swap; the coordinates
produced by get_index always lie inside the matrix, where getD agrees with
Python indexing. -/
def getCellD (m : List (List Nat)) (i j : Nat) : Nat :=
  (m.getD i []).getD j 0

/-- Writing matrix[i][j] as done by __setitem__ inside swap. -/
def setCell (m : List (List Nat)) (i j v : Nat) : List (List Nat) :=
  m.set i ((m.getD i []).set j v)

/-- EFPState.swap: exchange the contents of two cells, then refresh
distance_to_end. -/
def EFPState.swap (st : EFPState) (coor1 coor2 : Nat × Nat) :
    Except PyError EFPState :=
  let tmp := getCellD st.matrix coor1.1 coor1.2
  let m1 := setCell st.matrix coor1.1 coor1.2 (getCellD st.matrix coor2.1 coor2.2)
  let m2 := setCell m1 coor2.1 coor2.2 tmp
  (st.withMatrix m2).update_distance_to_end

/-- EFPState.move: locate the blank, check the board edge for the requested
direction, and swap the blank with the adjacent tile. -/
def EFPState.move (st : EFPState) (dir : Dir) : Except PyError EFPState :=
  match st.get_index 0 with
  | .error e => .error e
  | .ok zero_index =>
    match dir with
    | .l =>
      if zero_index.2 = 0 then .error .invalidMoveDirection
      else st.swap zero_index (zero_index.1, zero_index.2 - 1)
    | .r =>
      if zero_index.2 = 2 then .error .invalidMoveDirection
      else st.swap zero_index (zero_index.1, zero_index.2 + 1)
    | .u =>
      if zero_index.1 = 0 then .error .invalidMoveDirection
      else st.swap zero_index (zero_index.1 - 1, zero_index.2)
    | .d =>
      if zero_index.1 = 2 then .error .invalidMoveDirection
      else st.swap zero_index (zero_index.1 + 1, zero_index.2)

/-- EFPState.__copy__: build a fresh state from to_sequence with the same
end_state and without recomputing the distance, then copy distance_to_end;
the constructor leaves prev_state as None. -/
def EFPState.ecopy (st : EFPState) : EFPState :=
  .mk (matrixOf st.to_sequence) st.distance_to_end st.end_state none

/-- One try block of EFPState.extend: move a copy in the given direction,
swallow InvalidMoveDirection, propagate any other exception. -/
def tryDir (st : EFPState) (dir : Dir) : Except PyError (List EFPState) :=
  match st.ecopy.move dir with
  | .ok s => .ok [s]
  | .error .invalidMoveDirection => .ok []
  | .error e => .error e

/-- EFPState.extend: try the four slide directions on copies of the state and
set the prev_state of every successor to the state itself. -/
def EFPState.extend (st : EFPState) : Except PyError (List EFPState) := do
  let a ← tryDir st .l
  let b ← tryDir st .r
  let c ← tryDir st .u
  let e ← tryDir st .d
  pure ((a ++ b ++ c ++ e).map fun s => s.withPrev (some st))

/-- Stable insertion used by sortByDist. -/
def insertByDist (x : EFPState) : List EFPState → List EFPState
  | [] => [x]
  | y :: ys =>
    if x.distance_to_end ≤ y.distance_to_end then x :: y :: ys
    else y :: insertByDist x ys

/-- Stable ascending sort by distance_to_end.  The Python list.sort with this
key is also stable and ascending, and all stable sorts agree. -/
def sortByDist : List EFPState → List EFPState
  | [] => []
  | x :: xs => insertByDist x (sortByDist xs)

/-- The observable ways a call of a_sharp_search can finish: return of the
goal node, the RuntimeError raised on an odd inversion parity difference, the
IndexError raised by process_list.pop(0) on an empty frontier (the
NoPathFound signal of the spec), a propagated exception from inner
operations, and exhaustion of the step budget of the embedding. -/
inductive SearchOutcome where
  | found (st : EFPState)
  | unsolvable
  | noPathFound
  | pyFail (e : PyError)
  | fuelOut
deriving Repr

/-- The while loop of a_sharp_search, with an explicit step budget.  Each pass
sorts the frontier by distance_to_end, pops the head, skips it when already
visited, marks it visited, returns it when it equals the goal by content hash,
and otherwise appends its successors to the frontier.  The second component
of the result records, as a ghost observation, the boards whose successors
were generated, in order. -/
def searchLoop (endSt : EFPState) :
    Nat → List (List Nat) → List EFPState → List (List Nat) →
      SearchOutcome × List (List Nat)
  | 0, _, _, expanded => (.fuelOut, expanded)
  | fuel + 1, visited, process_list, expanded =>
    match sortByDist process_list with
    | [] => (.noPathFound, expanded)
    | current :: rest =>
      if current.to_sequence ∈ visited then
        searchLoop endSt fuel visited rest expanded
      else
        if pyEq current endSt then (.found current, expanded)
        else
          match current.extend with
          | .error e => (.pyFail e, expanded ++ [current.to_sequence])
          | .ok succs =>
            searchLoop endSt fuel (visited ++ [current.to_sequence])
              (rest ++ succs) (expanded ++ [current.to_sequence])

/-- The first two lines of a_sharp_search: the in-place mutation of the start
argument, setting its distance_to_end to distance(start, end) and its
end_state to end. -/
def search_setup (start endSt : EFPState) : Except PyError EFPState :=
  (distanceM start.matrix endSt.matrix).map fun d =>
    (start.withDist (Int.ofNat d)).withEnd (some endSt.matrix)

/-- a_sharp_search of main.py: mutate start, gate on the parity of the
inversion count difference, then run the search loop with start as the only
frontier entry and an empty visited set. -/
def a_sharp_search (fuel : Nat) (start endSt : EFPState) :
    SearchOutcome × List (List Nat) :=
  match search_setup start endSt with
  | .error e => (.pyFail e, [])
  | .ok start1 =>
    if ((count_inversions start1.to_sequence : Int)
          - (count_inversions endSt.to_sequence : Int)) % 2 ≠ 0 then
      (.unsolvable, [])
    else
      searchLoop endSt fuel [] [start1] []

/-- A Board freshly built from a flat sequence by EFPState(sequence): the
default end_state is None, so update_distance_to_end sets distance_to_end to
-1 and prev_state to None. -/
def mkBoard (sequence : List Nat) : EFPState :=
  .mk (matrixOf sequence) (-1) none none

/-- Path reconstruction: the reverse-chronological list of boards obtained by
following prev_state references, as the loop in main does. -/
def EFPState.pathOf : EFPState → List (List (List Nat))
  | .mk m _ _ none => [m]
  | .mk m _ _ (some p) => m :: p.pathOf

/-- A well-formed 3x3 matrix shape: three rows of three cells. -/
def shape3 (m : List (List Nat)) : Prop :=
  m.length = 3 ∧ ∀ r ∈ m, r.length = 3

instance (m : List (List Nat)) : Decidable (shape3 m) := by
  unfold shape3; infer_instance

/-- One legal slide between two board matrices: some direction moves a board
holding the first matrix (with no goal set, so that the move cannot fail on a
distance recomputation) to a board holding the second matrix. -/
def slideRel (m m' : List (List Nat)) : Prop :=
  ∃ dir : Dir, ∃ st' : EFPState,
    EFPState.move (.mk m (-1) none none) dir = .ok st' ∧ st'.matrix = m'

/-! ### Basic lemmas about the state accessors -/

@[simp] theorem EFPState.matrix_mk (m : List (List Nat)) (d : Int)
    (e : Option (List (List Nat))) (p : Option EFPState) :
    (EFPState.mk m d e p).matrix = m := rfl

@[simp] theorem EFPState.dist_mk (m : List (List Nat)) (d : Int)
    (e : Option (List (List Nat))) (p : Option EFPState) :
    (EFPState.mk m d e p).distance_to_end = d := rfl

@[simp] theorem EFPState.end_mk (m : List (List Nat)) (d : Int)
    (e : Option (List (List Nat))) (p : Option EFPState) :
    (EFPState.mk m d e p).end_state = e := rfl

@[simp] theorem EFPState.prev_mk (m : List (List Nat)) (d : Int)
    (e : Option (List (List Nat))) (p : Option EFPState) :
    (EFPState.mk m d e p).prev_state = p := rfl

@[simp] theorem EFPState.withDist_matrix (st : EFPState) (d : Int) :
    (st.withDist d).matrix = st.matrix := rfl

@[simp] theorem EFPState.withDist_dist (st : EFPState) (d : Int) :
    (st.withDist d).distance_to_end = d := rfl

@[simp] theorem EFPState.withDist_end (st : EFPState) (d : Int) :
    (st.withDist d).end_state = st.end_state := rfl

@[simp] theorem EFPState.withDist_prev (st : EFPState) (d : Int) :
    (st.withDist d).prev_state = st.prev_state := rfl

@[simp] theorem EFPState.withEnd_matrix (st : EFPState)
    (e : Option (List (List Nat))) : (st.withEnd e).matrix = st.matrix := rfl

@[simp] theorem EFPState.withEnd_dist (st : EFPState)
    (e : Option (List (List Nat))) :
    (st.withEnd e).distance_to_end = st.distance_to_end := rfl

@[simp] theorem EFPState.withEnd_end (st : EFPState)
    (e : Option (List (List Nat))) : (st.withEnd e).end_state = e := rfl

@[simp] theorem EFPState.withEnd_prev (st : EFPState)
    (e : Option (List (List Nat))) :
    (st.withEnd e).prev_state = st.prev_state := rfl

@[simp] theorem EFPState.withPrev_matrix (st : EFPState) (p : Option EFPState) :
    (st.withPrev p).matrix = st.matrix := rfl

@[simp] theorem EFPState.withPrev_prev (st : EFPState) (p : Option EFPState) :
    (st.withPrev p).prev_state = p := rfl

@[simp] theorem EFPState.withMatrix_matrix (st : EFPState) (m : List (List Nat)) :
    (st.withMatrix m).matrix = m := rfl

@[simp] theorem EFPState.to_sequence_mk (m : List (List Nat)) (d : Int)
    (e : Option (List (List Nat))) (p : Option EFPState) :
    (EFPState.mk m d e p).to_sequence = m.flatten := rfl

/-! ### Injectivity of the hash model and of flatten on 3x3 shapes -/

theorem tupleHash_injective : ∀ l1 l2 : List Nat, tupleHash l1 = tupleHash l2 → l1 = l2 := by
  intro l1
  induction l1 with
  | nil =>
    intro l2 h
    cases l2 with
    | nil => rfl
    | cons y ys => simp [tupleHash] at h
  | cons x xs ih =>
    intro l2 h
    cases l2 with
    | nil => simp [tupleHash] at h
    | cons y ys =>
      simp only [tupleHash, Nat.add_right_cancel_iff] at h
      obtain ⟨hx, hy⟩ := Nat.pair_eq_pair.mp h
      exact hx ▸ (ih ys hy) ▸ rfl

theorem shape3_flatten_inj {m1 m2 : List (List Nat)} (h1 : shape3 m1)
    (h2 : shape3 m2) (h : m1.flatten = m2.flatten) : m1 = m2 := by
  obtain ⟨hl1, hr1⟩ := h1
  obtain ⟨hl2, hr2⟩ := h2
  obtain ⟨a0, a1, a2, rfl⟩ := List.length_eq_three.mp hl1
  obtain ⟨b0, b1, b2, rfl⟩ := List.length_eq_three.mp hl2
  obtain ⟨x0, x1, x2, rfl⟩ := List.length_eq_three.mp (hr1 a0 (by simp))
  obtain ⟨x3, x4, x5, rfl⟩ := List.length_eq_three.mp (hr1 a1 (by simp))
  obtain ⟨x6, x7, x8, rfl⟩ := List.length_eq_three.mp (hr1 a2 (by simp))
  obtain ⟨y0, y1, y2, rfl⟩ := List.length_eq_three.mp (hr2 b0 (by simp))
  obtain ⟨y3, y4, y5, rfl⟩ := List.length_eq_three.mp (hr2 b1 (by simp))
  obtain ⟨y6, y7, y8, rfl⟩ := List.length_eq_three.mp (hr2 b2 (by simp))
  simp_all

/-- C3: two Boards are equal under the content-hash equality of __eq__ exactly
when their 3x3 arrangements are identical cell for cell; the hash is derived
from the full flattened arrangement, so equality is decided by full content. -/
theorem c3_eq_iff_cellwise (a b : EFPState) (ha : shape3 a.matrix)
    (hb : shape3 b.matrix) : pyEq a b = true ↔ a.matrix = b.matrix := by
  constructor
  · intro h
    have hseq : b.to_sequence = a.to_sequence :=
      tupleHash_injective _ _ (by simpa [pyEq] using h)
    exact (shape3_flatten_inj hb ha hseq).symm
  · intro h
    simp [pyEq, EFPState.to_sequence, h]

/-- Witness for C3 at two concrete boards. -/
theorem c3_eq_iff_cellwise_witness :
    shape3 (mkBoard [0, 1, 2, 3, 4, 5, 6, 7, 8]).matrix
      ∧ (pyEq (mkBoard [0, 1, 2, 3, 4, 5, 6, 7, 8])
            (mkBoard [0, 1, 2, 3, 4, 5, 6, 7, 8]) = true
          ↔ (mkBoard [0, 1, 2, 3, 4, 5, 6, 7, 8]).matrix
              = (mkBoard [0, 1, 2, 3, 4, 5, 6, 7, 8]).matrix) :=
  ⟨by decide,
    c3_eq_iff_cellwise (mkBoard [0, 1, 2, 3, 4, 5, 6, 7, 8])
      (mkBoard [0, 1, 2, 3, 4, 5, 6, 7, 8]) (by decide) (by decide)⟩

/-- C2: when the frontier is empty at the top of a search-loop pass (and the
step budget is not exhausted), the loop stops at once with the noPathFound
signal, the IndexError raised by pop on the empty list, surfaced to the
caller unchanged; it neither loops nor fails along another path, and the
expanded record is returned as is. -/
theorem c2_empty_frontier_no_path_found (endSt : EFPState) (fuel : Nat)
    (visited expanded : List (List Nat)) :
    searchLoop endSt (fuel + 1) visited [] expanded = (.noPathFound, expanded) := rfl

/-- C1: the code of count_inversions counts every descending pair, including
the pairs whose later value is the blank 0, so on the board 1,0,2,...,8 it
returns 1 while the count described by the claim (both values nonzero) is 0.
As a consequence the parity gate of a_sharp_search declares unsolvable a pair
of boards that differ by one legal slide. -/
theorem c1_count_inversions_counts_blank_pairs :
    count_inversions [1, 0, 2, 3, 4, 5, 6, 7, 8] = 1
      ∧ spec_inversions [1, 0, 2, 3, 4, 5, 6, 7, 8] = 0
      ∧ a_sharp_search 4 (mkBoard [1, 0, 2, 3, 4, 5, 6, 7, 8])
          (mkBoard [0, 1, 2, 3, 4, 5, 6, 7, 8]) = (.unsolvable, [])
      ∧ slideRel (matrixOf [0, 1, 2, 3, 4, 5, 6, 7, 8])
          (matrixOf [1, 0, 2, 3, 4, 5, 6, 7, 8]) :=
  ⟨rfl, rfl, rfl,
    ⟨Dir.r, .mk (matrixOf [1, 0, 2, 3, 4, 5, 6, 7, 8]) (-1) none none, rfl, rfl⟩⟩

@[simp] theorem EFPState.to_sequence_withDist (st : EFPState) (d : Int) :
    (st.withDist d).to_sequence = st.to_sequence := rfl

@[simp] theorem EFPState.to_sequence_withEnd (st : EFPState)
    (e : Option (List (List Nat))) : (st.withEnd e).to_sequence = st.to_sequence := rfl

@[simp] theorem EFPState.to_sequence_withPrev (st : EFPState)
    (p : Option EFPState) : (st.withPrev p).to_sequence = st.to_sequence := rfl

/-- Counterexample to C5 as stated: the boards 1..8,0 and 2,1,3,4,5,6,7,0,8
have an odd difference of blank-excluding inversion counts (0 versus 1), yet
the engine does not refuse to search: its own gate, computed on the full
sequences including the blank, sees an even difference, and the engine goes
on to expand the start board (visible in the ghost record of expanded
boards). -/
theorem c5_counterexample :
    ((spec_inversions [1, 2, 3, 4, 5, 6, 7, 8, 0] : Int)
        - (spec_inversions [2, 1, 3, 4, 5, 6, 7, 0, 8] : Int)) % 2 ≠ 0
      ∧ a_sharp_search 1 (mkBoard [1, 2, 3, 4, 5, 6, 7, 8, 0])
          (mkBoard [2, 1, 3, 4, 5, 6, 7, 0, 8])
          = (.fuelOut, [[1, 2, 3, 4, 5, 6, 7, 8, 0]]) :=
  ⟨by decide, rfl⟩

/-- C5 amended: for every start and goal pair whose difference of inversion
counts as computed by the code over the full 9-cell sequence (blank
included) is odd, and on which the initial distance computation succeeds,
the engine refuses to search, reports the Unsolvable signal, and expands no
board: the ghost record of expanded boards is empty.  A swap of two adjacent
non-blank tiles keeps the blank in place and flips this full-sequence count
by one, so the particular case of the original claim is covered; the general
blank-excluding reading is refuted by c5_counterexample. -/
theorem c5_amended_odd_parity_refuses (s g : EFPState) (fuel : Nat) (d : Nat)
    (hd : distanceM s.matrix g.matrix = .ok d)
    (hodd : ((count_inversions s.to_sequence : Int)
        - (count_inversions g.to_sequence : Int)) % 2 ≠ 0) :
    a_sharp_search fuel s g = (.unsolvable, []) := by
  unfold a_sharp_search search_setup
  rw [hd]
  simp only [Except.map, EFPState.to_sequence_withDist, EFPState.to_sequence_withEnd]
  rw [if_pos hodd]

/-- Witness for the amended C5: boards differing by the adjacent swap of the
non-blank tiles 1 and 2. -/
theorem c5_amended_witness :
    distanceM (mkBoard [2, 1, 3, 4, 5, 6, 7, 8, 0]).matrix
        (mkBoard [1, 2, 3, 4, 5, 6, 7, 8, 0]).matrix = .ok 2
      ∧ a_sharp_search 7 (mkBoard [2, 1, 3, 4, 5, 6, 7, 8, 0])
          (mkBoard [1, 2, 3, 4, 5, 6, 7, 8, 0]) = (.unsolvable, []) :=
  ⟨rfl, c5_amended_odd_parity_refuses _ _ 7 2 rfl (by decide)⟩

/-- Length of the reconstructed path of a successful search result. -/
def pathLenOf (r : SearchOutcome × List (List Nat)) : Option Nat :=
  match r.1 with
  | .found st => some st.pathOf.length
  | _ => none

/-- C8: the search engine is a deterministic function whose first action
overwrites the bookkeeping fields of its start argument, so two invocations
on the same board pair, including a second run that receives the start
object as mutated by the first run, return identical results and in
particular solution paths of identical length; the fixed stable frontier
order leaves no room for varying tie-breaks between runs. -/
theorem c8_second_run_same_length (fuel : Nat) (m : List (List Nat))
    (d1 d2 : Int) (e1 e2 : Option (List (List Nat))) (g : EFPState) :
    a_sharp_search fuel (.mk m d1 e1 none) g
        = a_sharp_search fuel (.mk m d2 e2 none) g
      ∧ pathLenOf (a_sharp_search fuel (.mk m d1 e1 none) g)
        = pathLenOf (a_sharp_search fuel (.mk m d2 e2 none) g) := by
  have h : a_sharp_search fuel (.mk m d1 e1 none) g
      = a_sharp_search fuel (.mk m d2 e2 none) g := by
    unfold a_sharp_search search_setup
    cases hd : distanceM (EFPState.mk m d1 e1 none).matrix g.matrix <;>
      simp_all [EFPState.withDist, EFPState.withEnd, EFPState.matrix]
  exact ⟨h, by rw [h]⟩

/-- C10: invoking the search engine first mutates the bookkeeping of its
start argument and nothing else: the state the engine actually searches from
has the same matrix and the same predecessor reference as start, its stored
heuristic value is the computed distance from start to end, and its goal
reference is the end board; the rest of the invocation receives this state
and the untouched end argument. -/
theorem c10_setup_mutates_only_bookkeeping (s e : EFPState) (d : Nat)
    (hd : distanceM s.matrix e.matrix = .ok d) :
    ∃ s1 : EFPState, search_setup s e = .ok s1
      ∧ s1.matrix = s.matrix
      ∧ s1.prev_state = s.prev_state
      ∧ s1.distance_to_end = Int.ofNat d
      ∧ s1.end_state = some e.matrix
      ∧ ∀ fuel : Nat, a_sharp_search fuel s e =
          if ((count_inversions s1.to_sequence : Int)
              - (count_inversions e.to_sequence : Int)) % 2 ≠ 0 then
            (.unsolvable, [])
          else searchLoop e fuel [] [s1] [] := by
  refine ⟨(s.withDist (Int.ofNat d)).withEnd (some e.matrix), ?_, by simp, by simp,
    by simp, by simp, ?_⟩
  · unfold search_setup
    rw [hd]
    rfl
  · intro fuel
    unfold a_sharp_search search_setup
    rw [hd]
    rfl

/-- Witness for C10 at the demo boards of main. -/
theorem c10_setup_witness :
    distanceM (mkBoard [8, 3, 5, 4, 1, 0, 2, 6, 7]).matrix
        (mkBoard [1, 2, 3, 4, 5, 0, 7, 8, 6]).matrix = .ok 14
      ∧ ∃ s1 : EFPState,
          search_setup (mkBoard [8, 3, 5, 4, 1, 0, 2, 6, 7])
              (mkBoard [1, 2, 3, 4, 5, 0, 7, 8, 6]) = .ok s1
            ∧ s1.matrix = (mkBoard [8, 3, 5, 4, 1, 0, 2, 6, 7]).matrix
            ∧ s1.prev_state = (mkBoard [8, 3, 5, 4, 1, 0, 2, 6, 7]).prev_state
            ∧ s1.distance_to_end = Int.ofNat 14
            ∧ s1.end_state = some (mkBoard [1, 2, 3, 4, 5, 0, 7, 8, 6]).matrix
            ∧ ∀ fuel : Nat,
                a_sharp_search fuel (mkBoard [8, 3, 5, 4, 1, 0, 2, 6, 7])
                    (mkBoard [1, 2, 3, 4, 5, 0, 7, 8, 6]) =
                  if ((count_inversions s1.to_sequence : Int)
                      - (count_inversions
                          (mkBoard [1, 2, 3, 4, 5, 0, 7, 8, 6]).to_sequence : Int))
                        % 2 ≠ 0 then
                    (.unsolvable, [])
                  else searchLoop (mkBoard [1, 2, 3, 4, 5, 0, 7, 8, 6]) fuel [] [s1] [] :=
  ⟨rfl, c10_setup_mutates_only_bookkeeping _ _ 14 rfl⟩

/-! ### Flat-sequence view of the matrix operations -/

/-- Index of the first occurrence of a value in a flat sequence, mirroring the
scan order of get_index on the matrix built from the sequence. -/
def posIn : List Nat → Nat → Nat
  | [], _ => 0
  | y :: t, v => if y = v then 0 else posIn t v + 1

/-- Exchange of the cells at two flat positions, written with the same two
set operations that EFPState.swap performs. -/
def swapFlat (s : List Nat) (i j : Nat) : List Nat :=
  (s.set i (s.getD j 0)).set j (s.getD i 0)

/-- Two flat positions of the 3x3 grid are adjacent: both lie inside the nine
cells of the grid and are in the same row with consecutive columns, or in the
same column with consecutive rows. -/
def gridAdjacent (b t : Nat) : Prop :=
  b < 9 ∧ t < 9
    ∧ ((b / 3 = t / 3 ∧ (t = b + 1 ∨ b = t + 1)) ∨ (t = b + 3 ∨ b = t + 3))

/-- A board differs from another by exactly one swap of the blank with an
adjacent tile: some in-grid position b holds the blank, and the second board
is the first with the cells at b and at a grid-adjacent position exchanged. -/
def adjBlankSwap (s t : List Nat) : Prop :=
  ∃ b tg : Nat, gridAdjacent b tg ∧ s.getD b 0 = 0 ∧ t = swapFlat s b tg

/-- Sanity check that adjBlankSwap is not degenerate: the unchanged board is
not an adjacent blank swap of itself, since the in-grid adjacency bounds pin
the blank position and force a genuine exchange of two distinct cells. -/
theorem adjBlankSwap_not_refl :
    ¬ adjBlankSwap [0, 1, 2, 3, 4, 5, 6, 7, 8] [0, 1, 2, 3, 4, 5, 6, 7, 8] := by
  rintro ⟨b, tg, ⟨hb9, ht9, hadj⟩, hblank, heq⟩
  have hb0 : b = 0 := by
    interval_cases b
    · rfl
    all_goals exact absurd hblank (by decide)
  subst hb0
  have htg : tg = 1 ∨ tg = 3 := by omega
  rcases htg with rfl | rfl
  · exact absurd heq (by decide)
  · exact absurd heq (by decide)

theorem posIn_lt {l : List Nat} {v : Nat} (h : v ∈ l) : posIn l v < l.length := by
  induction l with
  | nil => cases h
  | cons y t ih =>
    by_cases hy : y = v
    · simp [posIn, hy]
    · have hv : v ∈ t := by
        rcases List.mem_cons.mp h with h1 | h1
        · exact absurd h1.symm hy
        · exact h1
      simp only [posIn, hy, if_false, List.length_cons]
      exact Nat.succ_lt_succ (ih hv)

theorem getD_mem {l : List Nat} {k : Nat} (hk : k < l.length) : l.getD k 0 ∈ l := by
  rw [List.getD_eq_getElem l 0 hk]
  exact List.getElem_mem hk

theorem posIn_getD {l : List Nat} {v : Nat} (h : v ∈ l) :
    l.getD (posIn l v) 0 = v := by
  induction l with
  | nil => cases h
  | cons y t ih =>
    by_cases hy : y = v
    · simp [posIn, hy]
    · have hv : v ∈ t := by
        rcases List.mem_cons.mp h with h1 | h1
        · exact absurd h1.symm hy
        · exact h1
      simp only [posIn, hy, if_false, List.getD_cons_succ]
      exact ih hv

theorem posIn_getD_of_nodup {l : List Nat} (hnd : l.Nodup) :
    ∀ k, k < l.length → posIn l (l.getD k 0) = k := by
  induction l with
  | nil => intro k hk; cases hk
  | cons y t ih =>
    intro k hk
    cases k with
    | zero => simp [posIn]
    | succ k =>
      have hk' : k < t.length := by simpa using hk
      have hyt : y ∉ t := (List.nodup_cons.mp hnd).1
      have hmem : t.getD k 0 ∈ t := getD_mem hk'
      have hy : y ≠ t.getD k 0 := fun hcontra => hyt (hcontra ▸ hmem)
      have hrec := ih (List.nodup_cons.mp hnd).2 k hk'
      simp only [List.getD_cons_succ, posIn]
      rw [if_neg hy, hrec]

theorem exists_nine {l : List Nat} (h : l.length = 9) :
    ∃ a0 a1 a2 a3 a4 a5 a6 a7 a8,
      l = [a0, a1, a2, a3, a4, a5, a6, a7, a8] := by
  obtain ⟨a0, t0, rfl⟩ := List.exists_cons_of_length_eq_add_one h
  have h0 : t0.length = 8 := by simpa using h
  obtain ⟨a1, t1, rfl⟩ := List.exists_cons_of_length_eq_add_one h0
  have h1 : t1.length = 7 := by simpa using h0
  obtain ⟨a2, t2, rfl⟩ := List.exists_cons_of_length_eq_add_one h1
  have h2 : t2.length = 6 := by simpa using h1
  obtain ⟨a3, t3, rfl⟩ := List.exists_cons_of_length_eq_add_one h2
  have h3 : t3.length = 5 := by simpa using h2
  obtain ⟨a4, t4, rfl⟩ := List.exists_cons_of_length_eq_add_one h3
  have h4 : t4.length = 4 := by simpa using h3
  obtain ⟨a5, t5, rfl⟩ := List.exists_cons_of_length_eq_add_one h4
  have h5 : t5.length = 3 := by simpa using h4
  obtain ⟨a6, t6, rfl⟩ := List.exists_cons_of_length_eq_add_one h5
  have h6 : t6.length = 2 := by simpa using h5
  obtain ⟨a7, t7, rfl⟩ := List.exists_cons_of_length_eq_add_one h6
  have h7 : t7.length = 1 := by simpa using h6
  obtain ⟨a8, t8, rfl⟩ := List.exists_cons_of_length_eq_add_one h7
  have h8 : t8.length = 0 := by simpa using h7
  rw [List.length_eq_zero] at h8
  subst h8
  exact ⟨a0, a1, a2, a3, a4, a5, a6, a7, a8, rfl⟩

theorem matrixOf_flatten {seq : List Nat} (h : seq.length = 9) :
    (matrixOf seq).flatten = seq := by
  obtain ⟨a0, a1, a2, a3, a4, a5, a6, a7, a8, rfl⟩ := exists_nine h
  rfl

theorem shape3_matrixOf {seq : List Nat} (h : seq.length = 9) :
    shape3 (matrixOf seq) := by
  obtain ⟨a0, a1, a2, a3, a4, a5, a6, a7, a8, rfl⟩ := exists_nine h
  constructor <;> simp [matrixOf]

theorem shape3_eq_matrixOf {m : List (List Nat)} (h : shape3 m) :
    m = matrixOf m.flatten ∧ m.flatten.length = 9 := by
  obtain ⟨hl, hr⟩ := h
  obtain ⟨r0, r1, r2, rfl⟩ := List.length_eq_three.mp hl
  obtain ⟨x0, x1, x2, rfl⟩ := List.length_eq_three.mp (hr r0 (by simp))
  obtain ⟨x3, x4, x5, rfl⟩ := List.length_eq_three.mp (hr r1 (by simp))
  obtain ⟨x6, x7, x8, rfl⟩ := List.length_eq_three.mp (hr r2 (by simp))
  exact ⟨rfl, rfl⟩

theorem cell_matrixOf {seq : List Nat} (h : seq.length = 9) {i j : Nat}
    (hi : i < 3) (hj : j < 3) :
    cell (matrixOf seq) i j = some (seq.getD (3 * i + j) 0) := by
  obtain ⟨a0, a1, a2, a3, a4, a5, a6, a7, a8, rfl⟩ := exists_nine h
  interval_cases i <;> interval_cases j <;> rfl

theorem getCellD_matrixOf {seq : List Nat} (h : seq.length = 9) {i j : Nat}
    (hi : i < 3) (hj : j < 3) :
    getCellD (matrixOf seq) i j = seq.getD (3 * i + j) 0 := by
  obtain ⟨a0, a1, a2, a3, a4, a5, a6, a7, a8, rfl⟩ := exists_nine h
  interval_cases i <;> interval_cases j <;> rfl

theorem setCell_matrixOf {seq : List Nat} (h : seq.length = 9) {i j : Nat}
    (hi : i < 3) (hj : j < 3) (v : Nat) :
    setCell (matrixOf seq) i j v = matrixOf (seq.set (3 * i + j) v) := by
  obtain ⟨a0, a1, a2, a3, a4, a5, a6, a7, a8, rfl⟩ := exists_nine h
  interval_cases i <;> interval_cases j <;> rfl

theorem get_index_matrixOf {seq : List Nat} (h : seq.length = 9) {v : Nat}
    (hv : v ∈ seq) :
    get_indexM (matrixOf seq) v = .ok (posIn seq v / 3, posIn seq v % 3) := by
  obtain ⟨a0, a1, a2, a3, a4, a5, a6, a7, a8, rfl⟩ := exists_nine h
  by_cases h0 : a0 = v
  · simp [get_indexM, get_index_go, cellList, cell, matrixOf, posIn, h0]
  by_cases h1 : a1 = v
  · simp [get_indexM, get_index_go, cellList, cell, matrixOf, posIn, h0, h1]
  by_cases h2 : a2 = v
  · simp [get_indexM, get_index_go, cellList, cell, matrixOf, posIn, h0, h1, h2]
  by_cases h3 : a3 = v
  · simp [get_indexM, get_index_go, cellList, cell, matrixOf, posIn, h0, h1, h2, h3]
  by_cases h4 : a4 = v
  · simp [get_indexM, get_index_go, cellList, cell, matrixOf, posIn, h0, h1, h2, h3, h4]
  by_cases h5 : a5 = v
  · simp [get_indexM, get_index_go, cellList, cell, matrixOf, posIn, h0, h1, h2, h3, h4,
      h5]
  by_cases h6 : a6 = v
  · simp [get_indexM, get_index_go, cellList, cell, matrixOf, posIn, h0, h1, h2, h3, h4,
      h5, h6]
  by_cases h7 : a7 = v
  · simp [get_indexM, get_index_go, cellList, cell, matrixOf, posIn, h0, h1, h2, h3, h4,
      h5, h6, h7]
  by_cases h8 : a8 = v
  · simp [get_indexM, get_index_go, cellList, cell, matrixOf, posIn, h0, h1, h2, h3, h4,
      h5, h6, h7, h8]
  · exfalso
    simp only [List.mem_cons, List.not_mem_nil, or_false] at hv
    rcases hv with hvv | hvv | hvv | hvv | hvv | hvv | hvv | hvv | hvv <;> simp_all

theorem get_index_matrixOf_notMem {seq : List Nat} (h : seq.length = 9) {v : Nat}
    (hv : v ∉ seq) :
    get_indexM (matrixOf seq) v = .error .runtimeError := by
  obtain ⟨a0, a1, a2, a3, a4, a5, a6, a7, a8, rfl⟩ := exists_nine h
  simp only [List.mem_cons, List.not_mem_nil, or_false, not_or] at hv
  obtain ⟨h0, h1, h2, h3, h4, h5, h6, h7, h8⟩ := hv
  have g0 : a0 ≠ v := fun hc => h0 hc.symm
  have g1 : a1 ≠ v := fun hc => h1 hc.symm
  have g2 : a2 ≠ v := fun hc => h2 hc.symm
  have g3 : a3 ≠ v := fun hc => h3 hc.symm
  have g4 : a4 ≠ v := fun hc => h4 hc.symm
  have g5 : a5 ≠ v := fun hc => h5 hc.symm
  have g6 : a6 ≠ v := fun hc => h6 hc.symm
  have g7 : a7 ≠ v := fun hc => h7 hc.symm
  have g8 : a8 ≠ v := fun hc => h8 hc.symm
  simp [get_indexM, get_index_go, cellList, cell, matrixOf, g0, g1, g2, g3, g4,
    g5, g6, g7, g8]

/-! ### Evaluation lemmas for move, copy and extend -/

theorem update_noEnd (st : EFPState) (h : st.end_state = none) :
    st.update_distance_to_end = .ok (st.withDist (-1)) := by
  unfold EFPState.update_distance_to_end
  rw [h]

theorem update_char {st x : EFPState} (h : st.update_distance_to_end = .ok x) :
    x.matrix = st.matrix ∧ x.end_state = st.end_state
      ∧ x.prev_state = st.prev_state := by
  unfold EFPState.update_distance_to_end at h
  cases he : st.end_state with
  | none =>
    rw [he] at h
    cases h
    simp [he]
  | some em =>
    rw [he] at h
    dsimp only at h
    cases hd : distanceM st.matrix em with
    | error e => rw [hd] at h; cases h
    | ok d =>
      rw [hd] at h
      simp only [Except.map] at h
      cases h
      simp [he]

theorem ecopy_of_matrixOf {seq : List Nat} (hlen : seq.length = 9) (dd : Int)
    (ee : Option (List (List Nat))) (pp : Option EFPState) :
    (EFPState.mk (matrixOf seq) dd ee pp).ecopy = .mk (matrixOf seq) dd ee none := by
  unfold EFPState.ecopy
  simp [EFPState.to_sequence, matrixOf_flatten hlen]

theorem move_eval_l {seq : List Nat} (hlen : seq.length = 9) (h0 : 0 ∈ seq)
    (dd : Int) (ee : Option (List (List Nat))) (pp : Option EFPState) :
    EFPState.move (.mk (matrixOf seq) dd ee pp) .l =
      if posIn seq 0 % 3 = 0 then .error .invalidMoveDirection
      else (EFPState.mk
          (matrixOf (swapFlat seq (posIn seq 0) (posIn seq 0 - 1))) dd ee
          pp).update_distance_to_end := by
  have hk : posIn seq 0 < 9 := hlen ▸ posIn_lt h0
  have hgi : (EFPState.mk (matrixOf seq) dd ee pp).get_index 0
      = .ok (posIn seq 0 / 3, posIn seq 0 % 3) := get_index_matrixOf hlen h0
  unfold EFPState.move
  rw [hgi]
  have hk3 : posIn seq 0 / 3 < 3 := by omega
  have hm3 : posIn seq 0 % 3 < 3 := by omega
  by_cases hc : posIn seq 0 % 3 = 0
  · simp [hc]
  · have hm1 : posIn seq 0 % 3 - 1 < 3 := by omega
    rw [if_neg hc]
    simp only [EFPState.swap, EFPState.matrix_mk, EFPState.withMatrix,
      EFPState.dist_mk, EFPState.end_mk, EFPState.prev_mk]
    rw [if_neg hc]
    rw [getCellD_matrixOf hlen hk3 hm3, getCellD_matrixOf hlen hk3 hm1,
      setCell_matrixOf hlen hk3 hm3,
      setCell_matrixOf (by simp [hlen]) hk3 hm1]
    have e1 : 3 * (posIn seq 0 / 3) + posIn seq 0 % 3 = posIn seq 0 := by omega
    have e2 : 3 * (posIn seq 0 / 3) + (posIn seq 0 % 3 - 1) = posIn seq 0 - 1 := by
      omega
    rw [e1, e2]
    rfl

theorem move_eval_r {seq : List Nat} (hlen : seq.length = 9) (h0 : 0 ∈ seq)
    (dd : Int) (ee : Option (List (List Nat))) (pp : Option EFPState) :
    EFPState.move (.mk (matrixOf seq) dd ee pp) .r =
      if posIn seq 0 % 3 = 2 then .error .invalidMoveDirection
      else (EFPState.mk
          (matrixOf (swapFlat seq (posIn seq 0) (posIn seq 0 + 1))) dd ee
          pp).update_distance_to_end := by
  have hk : posIn seq 0 < 9 := hlen ▸ posIn_lt h0
  have hgi : (EFPState.mk (matrixOf seq) dd ee pp).get_index 0
      = .ok (posIn seq 0 / 3, posIn seq 0 % 3) := get_index_matrixOf hlen h0
  unfold EFPState.move
  rw [hgi]
  have hk3 : posIn seq 0 / 3 < 3 := by omega
  have hm3 : posIn seq 0 % 3 < 3 := by omega
  by_cases hc : posIn seq 0 % 3 = 2
  · simp [hc]
  · have hm1 : posIn seq 0 % 3 + 1 < 3 := by omega
    rw [if_neg hc]
    simp only [EFPState.swap, EFPState.matrix_mk, EFPState.withMatrix,
      EFPState.dist_mk, EFPState.end_mk, EFPState.prev_mk]
    rw [if_neg hc]
    rw [getCellD_matrixOf hlen hk3 hm3, getCellD_matrixOf hlen hk3 hm1,
      setCell_matrixOf hlen hk3 hm3,
      setCell_matrixOf (by simp [hlen]) hk3 hm1]
    have e1 : 3 * (posIn seq 0 / 3) + posIn seq 0 % 3 = posIn seq 0 := by omega
    have e2 : 3 * (posIn seq 0 / 3) + (posIn seq 0 % 3 + 1) = posIn seq 0 + 1 := by
      omega
    rw [e1, e2]
    rfl

theorem move_eval_u {seq : List Nat} (hlen : seq.length = 9) (h0 : 0 ∈ seq)
    (dd : Int) (ee : Option (List (List Nat))) (pp : Option EFPState) :
    EFPState.move (.mk (matrixOf seq) dd ee pp) .u =
      if posIn seq 0 / 3 = 0 then .error .invalidMoveDirection
      else (EFPState.mk
          (matrixOf (swapFlat seq (posIn seq 0) (posIn seq 0 - 3))) dd ee
          pp).update_distance_to_end := by
  have hk : posIn seq 0 < 9 := hlen ▸ posIn_lt h0
  have hgi : (EFPState.mk (matrixOf seq) dd ee pp).get_index 0
      = .ok (posIn seq 0 / 3, posIn seq 0 % 3) := get_index_matrixOf hlen h0
  unfold EFPState.move
  rw [hgi]
  have hk3 : posIn seq 0 / 3 < 3 := by omega
  have hm3 : posIn seq 0 % 3 < 3 := by omega
  by_cases hc : posIn seq 0 / 3 = 0
  · simp [hc]
  · have hm1 : posIn seq 0 / 3 - 1 < 3 := by omega
    rw [if_neg hc]
    simp only [EFPState.swap, EFPState.matrix_mk, EFPState.withMatrix,
      EFPState.dist_mk, EFPState.end_mk, EFPState.prev_mk]
    rw [if_neg hc]
    rw [getCellD_matrixOf hlen hk3 hm3, getCellD_matrixOf hlen hm1 hm3,
      setCell_matrixOf hlen hk3 hm3,
      setCell_matrixOf (by simp [hlen]) hm1 hm3]
    have e1 : 3 * (posIn seq 0 / 3) + posIn seq 0 % 3 = posIn seq 0 := by omega
    have e2 : 3 * (posIn seq 0 / 3 - 1) + posIn seq 0 % 3 = posIn seq 0 - 3 := by
      omega
    rw [e1, e2]
    rfl

theorem move_eval_d {seq : List Nat} (hlen : seq.length = 9) (h0 : 0 ∈ seq)
    (dd : Int) (ee : Option (List (List Nat))) (pp : Option EFPState) :
    EFPState.move (.mk (matrixOf seq) dd ee pp) .d =
      if posIn seq 0 / 3 = 2 then .error .invalidMoveDirection
      else (EFPState.mk
          (matrixOf (swapFlat seq (posIn seq 0) (posIn seq 0 + 3))) dd ee
          pp).update_distance_to_end := by
  have hk : posIn seq 0 < 9 := hlen ▸ posIn_lt h0
  have hgi : (EFPState.mk (matrixOf seq) dd ee pp).get_index 0
      = .ok (posIn seq 0 / 3, posIn seq 0 % 3) := get_index_matrixOf hlen h0
  unfold EFPState.move
  rw [hgi]
  have hk3 : posIn seq 0 / 3 < 3 := by omega
  have hm3 : posIn seq 0 % 3 < 3 := by omega
  by_cases hc : posIn seq 0 / 3 = 2
  · simp [hc]
  · have hm1 : posIn seq 0 / 3 + 1 < 3 := by omega
    rw [if_neg hc]
    simp only [EFPState.swap, EFPState.matrix_mk, EFPState.withMatrix,
      EFPState.dist_mk, EFPState.end_mk, EFPState.prev_mk]
    rw [if_neg hc]
    rw [getCellD_matrixOf hlen hk3 hm3, getCellD_matrixOf hlen hm1 hm3,
      setCell_matrixOf hlen hk3 hm3,
      setCell_matrixOf (by simp [hlen]) hm1 hm3]
    have e1 : 3 * (posIn seq 0 / 3) + posIn seq 0 % 3 = posIn seq 0 := by omega
    have e2 : 3 * (posIn seq 0 / 3 + 1) + posIn seq 0 % 3 = posIn seq 0 + 3 := by
      omega
    rw [e1, e2]
    rfl

theorem tryDir_l_eval {seq : List Nat} (hlen : seq.length = 9) (h0 : 0 ∈ seq)
    (dd : Int) (pp : Option EFPState) :
    tryDir (.mk (matrixOf seq) dd none pp) .l =
      .ok (if posIn seq 0 % 3 = 0 then [] else
        [.mk (matrixOf (swapFlat seq (posIn seq 0) (posIn seq 0 - 1)))
          (-1) none none]) := by
  unfold tryDir
  rw [ecopy_of_matrixOf hlen, move_eval_l hlen h0]
  by_cases hc : posIn seq 0 % 3 = 0
  · simp [hc]
  · rw [if_neg hc, if_neg hc,
      update_noEnd (.mk (matrixOf (swapFlat seq (posIn seq 0) (posIn seq 0 - 1)))
        dd none none) rfl]
    rfl

theorem tryDir_r_eval {seq : List Nat} (hlen : seq.length = 9) (h0 : 0 ∈ seq)
    (dd : Int) (pp : Option EFPState) :
    tryDir (.mk (matrixOf seq) dd none pp) .r =
      .ok (if posIn seq 0 % 3 = 2 then [] else
        [.mk (matrixOf (swapFlat seq (posIn seq 0) (posIn seq 0 + 1)))
          (-1) none none]) := by
  unfold tryDir
  rw [ecopy_of_matrixOf hlen, move_eval_r hlen h0]
  by_cases hc : posIn seq 0 % 3 = 2
  · simp [hc]
  · rw [if_neg hc, if_neg hc,
      update_noEnd (.mk (matrixOf (swapFlat seq (posIn seq 0) (posIn seq 0 + 1)))
        dd none none) rfl]
    rfl

theorem tryDir_u_eval {seq : List Nat} (hlen : seq.length = 9) (h0 : 0 ∈ seq)
    (dd : Int) (pp : Option EFPState) :
    tryDir (.mk (matrixOf seq) dd none pp) .u =
      .ok (if posIn seq 0 / 3 = 0 then [] else
        [.mk (matrixOf (swapFlat seq (posIn seq 0) (posIn seq 0 - 3)))
          (-1) none none]) := by
  unfold tryDir
  rw [ecopy_of_matrixOf hlen, move_eval_u hlen h0]
  by_cases hc : posIn seq 0 / 3 = 0
  · simp [hc]
  · rw [if_neg hc, if_neg hc,
      update_noEnd (.mk (matrixOf (swapFlat seq (posIn seq 0) (posIn seq 0 - 3)))
        dd none none) rfl]
    rfl

theorem tryDir_d_eval {seq : List Nat} (hlen : seq.length = 9) (h0 : 0 ∈ seq)
    (dd : Int) (pp : Option EFPState) :
    tryDir (.mk (matrixOf seq) dd none pp) .d =
      .ok (if posIn seq 0 / 3 = 2 then [] else
        [.mk (matrixOf (swapFlat seq (posIn seq 0) (posIn seq 0 + 3)))
          (-1) none none]) := by
  unfold tryDir
  rw [ecopy_of_matrixOf hlen, move_eval_d hlen h0]
  by_cases hc : posIn seq 0 / 3 = 2
  · simp [hc]
  · rw [if_neg hc, if_neg hc,
      update_noEnd (.mk (matrixOf (swapFlat seq (posIn seq 0) (posIn seq 0 + 3)))
        dd none none) rfl]
    rfl

theorem extend_eval_noEnd {seq : List Nat} (hlen : seq.length = 9)
    (h0 : 0 ∈ seq) (dd : Int) (pp : Option EFPState) :
    (EFPState.mk (matrixOf seq) dd none pp).extend = .ok (
      ((if posIn seq 0 % 3 = 0 then [] else
          [EFPState.mk (matrixOf (swapFlat seq (posIn seq 0) (posIn seq 0 - 1)))
            (-1) none none])
        ++ (if posIn seq 0 % 3 = 2 then [] else
          [EFPState.mk (matrixOf (swapFlat seq (posIn seq 0) (posIn seq 0 + 1)))
            (-1) none none])
        ++ (if posIn seq 0 / 3 = 0 then [] else
          [EFPState.mk (matrixOf (swapFlat seq (posIn seq 0) (posIn seq 0 - 3)))
            (-1) none none])
        ++ (if posIn seq 0 / 3 = 2 then [] else
          [EFPState.mk (matrixOf (swapFlat seq (posIn seq 0) (posIn seq 0 + 3)))
            (-1) none none])).map
        fun s => s.withPrev (some (.mk (matrixOf seq) dd none pp))) := by
  unfold EFPState.extend
  rw [tryDir_l_eval hlen h0, tryDir_r_eval hlen h0, tryDir_u_eval hlen h0,
    tryDir_d_eval hlen h0]
  rfl

/-- Characterization of one successor produced during expansion of a board
with sequence seq: it arises by swapping the blank with a grid-adjacent cell,
it inherits the goal reference, its predecessor is the expanded state, and
the step is a legal slide. -/
def succChar (seq : List Nat) (ee : Option (List (List Nat))) (pr : EFPState)
    (x : EFPState) : Prop :=
  ∃ tg : Nat, gridAdjacent (posIn seq 0) tg
    ∧ x.matrix = matrixOf (swapFlat seq (posIn seq 0) tg)
    ∧ x.end_state = ee ∧ x.prev_state = some pr
    ∧ slideRel (matrixOf seq) x.matrix

theorem tryDir_char {seq : List Nat} (hlen : seq.length = 9) (h0 : 0 ∈ seq)
    (dd : Int) (ee : Option (List (List Nat))) (pp : Option EFPState)
    (dir : Dir) {lst : List EFPState}
    (h : tryDir (.mk (matrixOf seq) dd ee pp) dir = .ok lst) :
    lst.length ≤ 1 ∧ ∀ x ∈ lst, ∃ tg : Nat, gridAdjacent (posIn seq 0) tg
      ∧ x.matrix = matrixOf (swapFlat seq (posIn seq 0) tg)
      ∧ x.end_state = ee ∧ x.prev_state = none
      ∧ slideRel (matrixOf seq) x.matrix := by
  have hk : posIn seq 0 < 9 := hlen ▸ posIn_lt h0
  unfold tryDir at h
  rw [ecopy_of_matrixOf hlen] at h
  cases dir with
  | l =>
    rw [move_eval_l hlen h0] at h
    by_cases hc : posIn seq 0 % 3 = 0
    · rw [if_pos hc] at h
      cases h
      simp
    · rw [if_neg hc] at h
      cases hu : (EFPState.mk
          (matrixOf (swapFlat seq (posIn seq 0) (posIn seq 0 - 1))) dd ee
          none).update_distance_to_end with
      | error e =>
        rw [hu] at h
        cases e <;> simp_all
      | ok s =>
        rw [hu] at h
        cases h
        obtain ⟨hm, he, hp⟩ := update_char hu
        refine ⟨by simp, ?_⟩
        intro x hx
        rw [List.mem_singleton] at hx
        subst hx
        refine ⟨posIn seq 0 - 1, by unfold gridAdjacent; omega, by simp_all, by simp_all,
          by simp_all, ?_⟩
        refine ⟨.l, .mk (matrixOf (swapFlat seq (posIn seq 0) (posIn seq 0 - 1)))
          (-1) none none, ?_, by simp_all⟩
        rw [move_eval_l hlen h0, if_neg hc,
          update_noEnd (.mk (matrixOf (swapFlat seq (posIn seq 0) (posIn seq 0 - 1)))
            (-1) none none) rfl]
        rfl
  | r =>
    rw [move_eval_r hlen h0] at h
    by_cases hc : posIn seq 0 % 3 = 2
    · rw [if_pos hc] at h
      cases h
      simp
    · rw [if_neg hc] at h
      cases hu : (EFPState.mk
          (matrixOf (swapFlat seq (posIn seq 0) (posIn seq 0 + 1))) dd ee
          none).update_distance_to_end with
      | error e =>
        rw [hu] at h
        cases e <;> simp_all
      | ok s =>
        rw [hu] at h
        cases h
        obtain ⟨hm, he, hp⟩ := update_char hu
        refine ⟨by simp, ?_⟩
        intro x hx
        rw [List.mem_singleton] at hx
        subst hx
        refine ⟨posIn seq 0 + 1, by unfold gridAdjacent; omega, by simp_all, by simp_all,
          by simp_all, ?_⟩
        refine ⟨.r, .mk (matrixOf (swapFlat seq (posIn seq 0) (posIn seq 0 + 1)))
          (-1) none none, ?_, by simp_all⟩
        rw [move_eval_r hlen h0, if_neg hc,
          update_noEnd (.mk (matrixOf (swapFlat seq (posIn seq 0) (posIn seq 0 + 1)))
            (-1) none none) rfl]
        rfl
  | u =>
    rw [move_eval_u hlen h0] at h
    by_cases hc : posIn seq 0 / 3 = 0
    · rw [if_pos hc] at h
      cases h
      simp
    · rw [if_neg hc] at h
      cases hu : (EFPState.mk
          (matrixOf (swapFlat seq (posIn seq 0) (posIn seq 0 - 3))) dd ee
          none).update_distance_to_end with
      | error e =>
        rw [hu] at h
        cases e <;> simp_all
      | ok s =>
        rw [hu] at h
        cases h
        obtain ⟨hm, he, hp⟩ := update_char hu
        refine ⟨by simp, ?_⟩
        intro x hx
        rw [List.mem_singleton] at hx
        subst hx
        refine ⟨posIn seq 0 - 3, by unfold gridAdjacent; omega, by simp_all, by simp_all,
          by simp_all, ?_⟩
        refine ⟨.u, .mk (matrixOf (swapFlat seq (posIn seq 0) (posIn seq 0 - 3)))
          (-1) none none, ?_, by simp_all⟩
        rw [move_eval_u hlen h0, if_neg hc,
          update_noEnd (.mk (matrixOf (swapFlat seq (posIn seq 0) (posIn seq 0 - 3)))
            (-1) none none) rfl]
        rfl
  | d =>
    rw [move_eval_d hlen h0] at h
    by_cases hc : posIn seq 0 / 3 = 2
    · rw [if_pos hc] at h
      cases h
      simp
    · rw [if_neg hc] at h
      cases hu : (EFPState.mk
          (matrixOf (swapFlat seq (posIn seq 0) (posIn seq 0 + 3))) dd ee
          none).update_distance_to_end with
      | error e =>
        rw [hu] at h
        cases e <;> simp_all
      | ok s =>
        rw [hu] at h
        cases h
        obtain ⟨hm, he, hp⟩ := update_char hu
        refine ⟨by simp, ?_⟩
        intro x hx
        rw [List.mem_singleton] at hx
        subst hx
        refine ⟨posIn seq 0 + 3, by unfold gridAdjacent; omega, by simp_all, by simp_all,
          by simp_all, ?_⟩
        refine ⟨.d, .mk (matrixOf (swapFlat seq (posIn seq 0) (posIn seq 0 + 3)))
          (-1) none none, ?_, by simp_all⟩
        rw [move_eval_d hlen h0, if_neg hc,
          update_noEnd (.mk (matrixOf (swapFlat seq (posIn seq 0) (posIn seq 0 + 3)))
            (-1) none none) rfl]
        rfl

@[simp] theorem EFPState.withPrev_end (st : EFPState) (p : Option EFPState) :
    (st.withPrev p).end_state = st.end_state := rfl

@[simp] theorem EFPState.withPrev_dist (st : EFPState) (p : Option EFPState) :
    (st.withPrev p).distance_to_end = st.distance_to_end := rfl

theorem exceptBind_ok {α β : Type} {x : Except PyError α}
    {f : α → Except PyError β} {b : β} (h : (x >>= f) = .ok b) :
    ∃ a, x = .ok a ∧ f a = .ok b := by
  cases x with
  | error e => simp [Bind.bind, Except.bind] at h
  | ok a => exact ⟨a, rfl, by simpa [Bind.bind, Except.bind] using h⟩

theorem extend_err {seq : List Nat} (hlen : seq.length = 9) (h0 : 0 ∉ seq)
    (dd : Int) (ee : Option (List (List Nat))) (pp : Option EFPState) :
    (EFPState.mk (matrixOf seq) dd ee pp).extend = .error .runtimeError := by
  have hgi : (EFPState.mk (matrixOf seq) dd ee none).get_index 0
      = .error .runtimeError := get_index_matrixOf_notMem hlen h0
  have hmv : EFPState.move (.mk (matrixOf seq) dd ee none) .l
      = .error .runtimeError := by
    unfold EFPState.move
    rw [hgi]
  have htd : tryDir (.mk (matrixOf seq) dd ee pp) .l = .error .runtimeError := by
    unfold tryDir
    rw [ecopy_of_matrixOf hlen, hmv]
  unfold EFPState.extend
  rw [htd]
  rfl

theorem extend_ok_char {seq : List Nat} (hlen : seq.length = 9) (dd : Int)
    (ee : Option (List (List Nat))) (pp : Option EFPState) {lst : List EFPState}
    (h : (EFPState.mk (matrixOf seq) dd ee pp).extend = .ok lst) :
    lst.length ≤ 4
      ∧ ∀ x ∈ lst, succChar seq ee (.mk (matrixOf seq) dd ee pp) x := by
  by_cases h0 : 0 ∈ seq
  · unfold EFPState.extend at h
    obtain ⟨a, ha, h⟩ := exceptBind_ok h
    obtain ⟨b, hb, h⟩ := exceptBind_ok h
    obtain ⟨c, hcc, h⟩ := exceptBind_ok h
    obtain ⟨d2, hdd, h⟩ := exceptBind_ok h
    have hlst : ((a ++ b ++ c ++ d2).map
        fun s => s.withPrev (some (.mk (matrixOf seq) dd ee pp))) = lst := by
      simpa [pure, Except.pure] using h
    obtain ⟨hla, hca⟩ := tryDir_char hlen h0 dd ee pp .l ha
    obtain ⟨hlb, hcb⟩ := tryDir_char hlen h0 dd ee pp .r hb
    obtain ⟨hlc, hcce⟩ := tryDir_char hlen h0 dd ee pp .u hcc
    obtain ⟨hld, hcd⟩ := tryDir_char hlen h0 dd ee pp .d hdd
    constructor
    · rw [← hlst]
      simp only [List.length_map, List.length_append]
      omega
    · intro x hx
      rw [← hlst] at hx
      simp only [List.mem_map] at hx
      obtain ⟨y, hy, rfl⟩ := hx
      have hchar : ∃ tg : Nat, gridAdjacent (posIn seq 0) tg
          ∧ y.matrix = matrixOf (swapFlat seq (posIn seq 0) tg)
          ∧ y.end_state = ee ∧ y.prev_state = none
          ∧ slideRel (matrixOf seq) y.matrix := by
        simp only [List.append_assoc, List.mem_append] at hy
        rcases hy with hy | hy | hy | hy
        · exact hca y hy
        · exact hcb y hy
        · exact hcce y hy
        · exact hcd y hy
      obtain ⟨tg, hadj, hm, he, _, hsl⟩ := hchar
      exact ⟨tg, hadj, by simpa using hm, by simpa using he, by simp,
        by simpa using hsl⟩
  · rw [extend_err hlen h0] at h
    cases h

/-- C7: for every Board built from a permutation of 0..8, legal successor
generation returns exactly 2, 3 or 4 boards according to the position of the
blank (corner, edge, center), each differing from the original by exactly one
swap of the blank with a grid-adjacent tile; blocked directions are skipped
silently and extend returns normally. -/
theorem c7_legal_successors (seq : List Nat) (hperm : seq.Perm (List.range 9)) :
    ∃ l : List EFPState, (mkBoard seq).extend = .ok l
      ∧ (posIn seq 0 ∈ ([0, 2, 6, 8] : List Nat) ↔ l.length = 2)
      ∧ (posIn seq 0 ∈ ([1, 3, 5, 7] : List Nat) ↔ l.length = 3)
      ∧ (posIn seq 0 = 4 ↔ l.length = 4)
      ∧ ∀ x ∈ l, adjBlankSwap seq x.to_sequence := by
  have hlen : seq.length = 9 := by simpa using hperm.length_eq
  have h0 : 0 ∈ seq := hperm.mem_iff.mpr (by decide)
  have hk : posIn seq 0 < 9 := hlen ▸ posIn_lt h0
  have hblank : seq.getD (posIn seq 0) 0 = 0 := posIn_getD h0
  have hsw : ∀ tg : Nat, (swapFlat seq (posIn seq 0) tg).length = 9 := by
    intro tg
    simp [swapFlat, hlen]
  unfold mkBoard
  have hext := extend_eval_noEnd hlen h0 (-1) none
  refine ⟨_, hext, ?_, ?_, ?_, ?_⟩
  · generalize hgen : posIn seq 0 = k at hk ⊢
    interval_cases k <;> simp
  · generalize hgen : posIn seq 0 = k at hk ⊢
    interval_cases k <;> simp
  · generalize hgen : posIn seq 0 = k at hk ⊢
    interval_cases k <;> simp
  · intro x hx
    simp only [List.mem_map] at hx
    obtain ⟨y, hy, rfl⟩ := hx
    simp only [List.append_assoc, List.mem_append] at hy
    have hchar : ∃ tg : Nat, gridAdjacent (posIn seq 0) tg
        ∧ y = .mk (matrixOf (swapFlat seq (posIn seq 0) tg)) (-1) none none := by
      rcases hy with hy | hy | hy | hy
      · by_cases hc : posIn seq 0 % 3 = 0
        · rw [if_pos hc] at hy; cases hy
        · rw [if_neg hc] at hy
          rw [List.mem_singleton] at hy
          exact ⟨posIn seq 0 - 1, by unfold gridAdjacent; omega, hy⟩
      · by_cases hc : posIn seq 0 % 3 = 2
        · rw [if_pos hc] at hy; cases hy
        · rw [if_neg hc] at hy
          rw [List.mem_singleton] at hy
          exact ⟨posIn seq 0 + 1, by unfold gridAdjacent; omega, hy⟩
      · by_cases hc : posIn seq 0 / 3 = 0
        · rw [if_pos hc] at hy; cases hy
        · rw [if_neg hc] at hy
          rw [List.mem_singleton] at hy
          exact ⟨posIn seq 0 - 3, by unfold gridAdjacent; omega, hy⟩
      · by_cases hc : posIn seq 0 / 3 = 2
        · rw [if_pos hc] at hy; cases hy
        · rw [if_neg hc] at hy
          rw [List.mem_singleton] at hy
          exact ⟨posIn seq 0 + 3, by unfold gridAdjacent; omega, hy⟩
    obtain ⟨tg, hadj, rfl⟩ := hchar
    refine ⟨posIn seq 0, tg, hadj, hblank, ?_⟩
    simp [EFPState.to_sequence, matrixOf_flatten (hsw tg)]

/-- Witness for C7 at a concrete permutation with the blank in a corner. -/
theorem c7_legal_successors_witness :
    ([0, 1, 2, 3, 4, 5, 6, 7, 8] : List Nat).Perm (List.range 9)
      ∧ ∃ l : List EFPState,
        (mkBoard [0, 1, 2, 3, 4, 5, 6, 7, 8]).extend = .ok l
          ∧ (posIn [0, 1, 2, 3, 4, 5, 6, 7, 8] 0 ∈ ([0, 2, 6, 8] : List Nat)
              ↔ l.length = 2)
          ∧ (posIn [0, 1, 2, 3, 4, 5, 6, 7, 8] 0 ∈ ([1, 3, 5, 7] : List Nat)
              ↔ l.length = 3)
          ∧ (posIn [0, 1, 2, 3, 4, 5, 6, 7, 8] 0 = 4 ↔ l.length = 4)
          ∧ ∀ x ∈ l, adjBlankSwap [0, 1, 2, 3, 4, 5, 6, 7, 8] x.to_sequence :=
  ⟨by decide, c7_legal_successors [0, 1, 2, 3, 4, 5, 6, 7, 8] (by decide)⟩

/-! ### Canonical value-indexed form of the distance -/

theorem distance_go_eval (selfM otherM : List (List Nat)) (V : Nat × Nat → Nat)
    (P : Nat → Nat × Nat) :
    ∀ cs : List (Nat × Nat),
      (∀ c ∈ cs, cell selfM c.1 c.2 = some (V c)) →
      (∀ c ∈ cs, V c ≠ 0 → get_indexM otherM (V c) = .ok (P (V c))) →
      distance_go selfM otherM cs = .ok ((cs.map fun c =>
        if V c = 0 then 0
        else adiff (P (V c)).2 c.2 + adiff (P (V c)).1 c.1).sum) := by
  intro cs
  induction cs with
  | nil => intro _ _; rfl
  | cons c cs ih =>
    intro hm ho
    have hmc := hm c (by simp)
    unfold distance_go
    rw [hmc]
    dsimp only
    by_cases hz : V c = 0
    · rw [if_pos hz, ih (fun x hx => hm x (by simp [hx])) (fun x hx => ho x (by simp [hx]))]
      simp [hz]
    · rw [if_neg hz, ho c (by simp) hz,
        ih (fun x hx => hm x (by simp [hx])) (fun x hx => ho x (by simp [hx]))]
      simp [hz, Except.map]

theorem map_eq_range_map (l : List Nat) (f : Nat → Nat) :
    l.map f = (List.range l.length).map fun k => f (l.getD k 0) := by
  induction l with
  | nil => rfl
  | cons x t ih =>
    rw [List.length_cons, List.range_succ_eq_map]
    simp only [List.map_cons, List.map_map]
    congr 1

/-- The contribution of one tile value to the distance between two boards
given as flat permutations. -/
def distVal (sa sb : List Nat) (v : Nat) : Nat :=
  if v = 0 then 0
  else adiff (posIn sb v % 3) (posIn sa v % 3) + adiff (posIn sb v / 3) (posIn sa v / 3)

theorem dist_canonical {sa sb : List Nat} (ha : sa.Perm (List.range 9))
    (hb : sb.Perm (List.range 9)) :
    distanceM (matrixOf sa) (matrixOf sb)
      = .ok (((List.range 9).map (distVal sa sb)).sum) := by
  have hla : sa.length = 9 := by simpa using ha.length_eq
  have hlb : sb.length = 9 := by simpa using hb.length_eq
  have hnda : sa.Nodup := (ha.nodup_iff).mpr (List.nodup_range 9)
  have hV : ∀ c ∈ cellList,
      cell (matrixOf sa) c.1 c.2 = some (sa.getD (3 * c.1 + c.2) 0) := by
    intro c hc
    fin_cases hc <;> exact cell_matrixOf hla (by norm_num) (by norm_num)
  have hmemb : ∀ k : Nat, k < 9 → sa.getD k 0 ∈ sb := by
    intro k hk
    exact hb.mem_iff.mpr (ha.mem_iff.mp (getD_mem (by omega)))
  have hP : ∀ c ∈ cellList, sa.getD (3 * c.1 + c.2) 0 ≠ 0 →
      get_indexM (matrixOf sb) (sa.getD (3 * c.1 + c.2) 0)
        = .ok (posIn sb (sa.getD (3 * c.1 + c.2) 0) / 3,
            posIn sb (sa.getD (3 * c.1 + c.2) 0) % 3) := by
    intro c hc _
    apply get_index_matrixOf hlb
    fin_cases hc <;> exact hmemb _ (by norm_num)
  have hgo := distance_go_eval (matrixOf sa) (matrixOf sb)
    (fun c => sa.getD (3 * c.1 + c.2) 0)
    (fun v => (posIn sb v / 3, posIn sb v % 3)) cellList hV hP
  rw [distanceM, hgo]
  congr 1
  have hcells : cellList = (List.range 9).map fun k => (k / 3, k % 3) := by decide
  rw [hcells, List.map_map]
  have hfun : ∀ k ∈ List.range 9,
      ((fun c => if sa.getD (3 * c.1 + c.2) 0 = 0 then 0
          else adiff (posIn sb (sa.getD (3 * c.1 + c.2) 0) % 3) c.2
            + adiff (posIn sb (sa.getD (3 * c.1 + c.2) 0) / 3) c.1)
        ∘ fun k => (k / 3, k % 3)) k = distVal sa sb (sa.getD k 0) := by
    intro k hk
    have hk9 : k < 9 := List.mem_range.mp hk
    have hpos : posIn sa (sa.getD k 0) = k :=
      posIn_getD_of_nodup hnda k (by omega)
    simp only [Function.comp_apply, Nat.div_add_mod, distVal, hpos]
  rw [List.map_congr_left hfun]
  have hmr := map_eq_range_map sa (distVal sa sb)
  rw [hla] at hmr
  rw [← hmr]
  exact (ha.map (distVal sa sb)).sum_eq

theorem adiff_comm (a b : Nat) : adiff a b = adiff b a := by
  unfold adiff
  rw [← Int.natAbs_neg, neg_sub]

theorem adiff_self (a : Nat) : adiff a a = 0 := by
  simp [adiff]

/-- C9: for Boards built from permutations of 0..8, the tile distance of a
board to itself is zero and the distance is symmetric in its two arguments. -/
theorem c9_distance_zero_and_symm (sa sb : List Nat)
    (ha : sa.Perm (List.range 9)) (hb : sb.Perm (List.range 9)) :
    EFPState.distance (mkBoard sa) (mkBoard sa) = .ok 0
      ∧ EFPState.distance (mkBoard sa) (mkBoard sb)
        = EFPState.distance (mkBoard sb) (mkBoard sa) := by
  constructor
  · show distanceM (matrixOf sa) (matrixOf sa) = .ok 0
    rw [dist_canonical ha ha]
    congr 1
    have hz : ∀ v ∈ List.range 9, distVal sa sa v = (fun _ => 0) v := by
      intro v _
      unfold distVal
      split_ifs with hv
      · rfl
      · simp [adiff_self]
    rw [List.map_congr_left hz]
    simp
  · show distanceM (matrixOf sa) (matrixOf sb) = distanceM (matrixOf sb) (matrixOf sa)
    rw [dist_canonical ha hb, dist_canonical hb ha]
    have hpt : ∀ v ∈ List.range 9, distVal sa sb v = distVal sb sa v := by
      intro v _
      unfold distVal
      split_ifs with hv
      · rfl
      · rw [adiff_comm (posIn sb v % 3), adiff_comm (posIn sb v / 3)]
    rw [List.map_congr_left hpt]

/-- Witness for C9 at two concrete permutations. -/
theorem c9_distance_witness :
    ([8, 3, 5, 4, 1, 0, 2, 6, 7] : List Nat).Perm (List.range 9)
      ∧ ([1, 2, 3, 4, 5, 0, 7, 8, 6] : List Nat).Perm (List.range 9)
      ∧ (EFPState.distance (mkBoard [8, 3, 5, 4, 1, 0, 2, 6, 7])
            (mkBoard [8, 3, 5, 4, 1, 0, 2, 6, 7]) = .ok 0
          ∧ EFPState.distance (mkBoard [8, 3, 5, 4, 1, 0, 2, 6, 7])
              (mkBoard [1, 2, 3, 4, 5, 0, 7, 8, 6])
            = EFPState.distance (mkBoard [1, 2, 3, 4, 5, 0, 7, 8, 6])
              (mkBoard [8, 3, 5, 4, 1, 0, 2, 6, 7])) :=
  ⟨by decide, by decide,
    c9_distance_zero_and_symm [8, 3, 5, 4, 1, 0, 2, 6, 7]
      [1, 2, 3, 4, 5, 0, 7, 8, 6] (by decide) (by decide)⟩

/-! ### Frontier order and the predecessor chain invariant -/

theorem insertByDist_perm (x : EFPState) (l : List EFPState) :
    (insertByDist x l).Perm (x :: l) := by
  induction l with
  | nil => exact List.Perm.refl _
  | cons y ys ih =>
    unfold insertByDist
    by_cases hc : x.distance_to_end ≤ y.distance_to_end
    · rw [if_pos hc]
    · rw [if_neg hc]
      exact (ih.cons y).trans (List.Perm.swap x y ys)

theorem sortByDist_perm (l : List EFPState) : (sortByDist l).Perm l := by
  induction l with
  | nil => exact List.Perm.refl _
  | cons x xs ih => exact (insertByDist_perm x (sortByDist xs)).trans (ih.cons x)

theorem pathOf_head (st : EFPState) : ∃ t, st.pathOf = st.matrix :: t := by
  cases st with
  | mk m d e p => cases p <;> exact ⟨_, rfl⟩

theorem pathOf_prev_some {x c : EFPState} (h : x.prev_state = some c) :
    x.pathOf = x.matrix :: c.pathOf := by
  cases x with
  | mk m d e p =>
    cases p with
    | none => cases h
    | some q =>
      simp only [EFPState.prev_state, Option.some.injEq] at h
      subst h
      rfl

/-- A state whose matrix is a well-shaped 3x3 matrix of its own flattening. -/
def matrixWf (st : EFPState) : Prop :=
  st.to_sequence.length = 9 ∧ st.matrix = matrixOf st.to_sequence

/-- The predecessor chain of a state reaches a board equal to the given start
matrix, every consecutive pair being one legal slide. -/
def chainInv (startM : List (List Nat)) (st : EFPState) : Prop :=
  st.pathOf.getLast? = some startM
    ∧ st.pathOf.Chain' (fun a b => slideRel b a)

theorem searchLoop_found_chain (endSt : EFPState) (startM : List (List Nat)) :
    ∀ (fuel : Nat) (visited : List (List Nat)) (frontier : List EFPState)
      (expanded exp2 : List (List Nat)) (node : EFPState),
      (∀ st ∈ frontier, matrixWf st ∧ chainInv startM st) →
      searchLoop endSt fuel visited frontier expanded = (.found node, exp2) →
      (matrixWf node ∧ chainInv startM node) ∧ pyEq node endSt = true := by
  intro fuel
  induction fuel with
  | zero =>
    intro visited frontier expanded exp2 node hinv h
    simp [searchLoop] at h
  | succ fuel ih =>
    intro visited frontier expanded exp2 node hinv h
    unfold searchLoop at h
    cases hs : sortByDist frontier with
    | nil => rw [hs] at h; simp at h
    | cons current rest =>
      rw [hs] at h
      dsimp only at h
      have hperm := sortByDist_perm frontier
      rw [hs] at hperm
      have hcur : matrixWf current ∧ chainInv startM current :=
        hinv current (hperm.subset (List.mem_cons_self _ _))
      have hrestinv : ∀ st ∈ rest, matrixWf st ∧ chainInv startM st := fun st hst =>
        hinv st (hperm.subset (List.mem_cons_of_mem _ hst))
      by_cases hv : current.to_sequence ∈ visited
      · rw [if_pos hv] at h
        exact ih visited rest expanded exp2 node hrestinv h
      · rw [if_neg hv] at h
        by_cases hg : pyEq current endSt = true
        · rw [if_pos hg] at h
          simp only [Prod.mk.injEq, SearchOutcome.found.injEq] at h
          obtain ⟨hcn, _⟩ := h
          subst hcn
          exact ⟨hcur, hg⟩
        · rw [if_neg hg] at h
          cases hex : current.extend with
          | error e => rw [hex] at h; simp at h
          | ok succs =>
            rw [hex] at h
            obtain ⟨hwf, hchain⟩ := hcur
            cases current with
            | mk m dd ee pp =>
              obtain ⟨hlen9, hmm⟩ := hwf
              have hlen : (m.flatten : List Nat).length = 9 := hlen9
              have hm : m = matrixOf m.flatten := hmm
              have hex2 : (EFPState.mk (matrixOf m.flatten) dd ee pp).extend
                  = .ok succs := by rw [← hm]; exact hex
              have hchar := (extend_ok_char hlen dd ee pp hex2).2
              refine ih _ _ _ _ _ ?_ h
              intro st hst
              rw [List.mem_append] at hst
              rcases hst with hst | hst
              · exact hrestinv st hst
              · have hc := hchar st hst
                obtain ⟨tg, hadj, hxm, hxe, hxp, hsl⟩ := hc
                have hswlen : (swapFlat m.flatten (posIn m.flatten 0) tg).length = 9 := by
                  simp [swapFlat, hlen]
                have hseq : st.to_sequence
                    = swapFlat m.flatten (posIn m.flatten 0) tg := by
                  show st.matrix.flatten = _
                  rw [hxm, matrixOf_flatten hswlen]
                constructor
                · constructor
                  · show st.to_sequence.length = 9
                    rw [hseq]
                    exact hswlen
                  · show st.matrix = matrixOf st.to_sequence
                    rw [hseq, hxm]
                · have hxp2 : st.prev_state = some (EFPState.mk m dd ee pp) := by
                    rw [hxp, ← hm]
                  have hpo := pathOf_prev_some hxp2
                  have hpcur : ∃ t, (EFPState.mk m dd ee pp).pathOf
                      = (EFPState.mk m dd ee pp).matrix :: t := pathOf_head _
                  obtain ⟨tl, htl⟩ := hpcur
                  obtain ⟨hlast, hch⟩ := hchain
                  constructor
                  · rw [hpo, htl, List.getLast?_cons_cons, ← htl]
                    exact hlast
                  · rw [hpo]
                    rw [List.chain'_cons']
                    constructor
                    · intro b hb
                      rw [htl] at hb
                      simp only [List.head?_cons, Option.mem_def,
                        Option.some.injEq] at hb
                      subst hb
                      show slideRel (EFPState.mk m dd ee pp).matrix st.matrix
                      show slideRel m st.matrix
                      rw [hm]
                      exact hsl
                    · exact hch

/-- C6: for every successful search whose start has no predecessor and a well
shaped matrix, the board of the returned node equals the goal board by
content, and following predecessor references yields a finite sequence of
boards headed by the goal node whose last element is the start matrix, each
consecutive pair differing by exactly one legal slide. -/
theorem c6_path_reconstruction (fuel : Nat) (s g node : EFPState)
    (exp2 : List (List Nat)) (hprev : s.prev_state = none)
    (hshape : shape3 s.matrix)
    (hrun : a_sharp_search fuel s g = (.found node, exp2)) :
    node.to_sequence = g.to_sequence
      ∧ (∃ t, node.pathOf = node.matrix :: t)
      ∧ node.pathOf.getLast? = some s.matrix
      ∧ node.pathOf.Chain' (fun a b => slideRel b a) := by
  unfold a_sharp_search at hrun
  cases hsetup : search_setup s g with
  | error e => rw [hsetup] at hrun; simp at hrun
  | ok start1 =>
    rw [hsetup] at hrun
    dsimp only at hrun
    by_cases hpar : ((count_inversions start1.to_sequence : Int)
        - (count_inversions g.to_sequence : Int)) % 2 ≠ 0
    · rw [if_pos hpar] at hrun
      simp at hrun
    · rw [if_neg hpar] at hrun
      have hs1 : start1.matrix = s.matrix ∧ start1.prev_state = none := by
        unfold search_setup at hsetup
        cases hd : distanceM s.matrix g.matrix with
        | error e => rw [hd] at hsetup; cases hsetup
        | ok d =>
          rw [hd] at hsetup
          simp only [Except.map] at hsetup
          cases hsetup
          simp [hprev]
      obtain ⟨hm1, hp1⟩ := hs1
      obtain ⟨hmx, hfl⟩ := shape3_eq_matrixOf hshape
      have hwfm : matrixWf start1 := by
        constructor
        · show start1.matrix.flatten.length = 9
          rw [hm1]
          exact hfl
        · show start1.matrix = matrixOf start1.matrix.flatten
          rw [hm1]
          exact hmx
      have hchain1 : chainInv s.matrix start1 := by
        have hph : start1.pathOf = [start1.matrix] := by
          cases start1 with
          | mk m d e p =>
            simp only [EFPState.prev_state] at hp1
            subst hp1
            rfl
        constructor
        · rw [hph, hm1]
          rfl
        · rw [hph]
          exact List.chain'_singleton _
      have hfin := searchLoop_found_chain g s.matrix fuel [] [start1] [] exp2 node
        (by
          intro st hst
          rw [List.mem_singleton] at hst
          subst hst
          exact ⟨hwfm, hchain1⟩) hrun
      obtain ⟨⟨hwfn, hlast, hch⟩, heq⟩ := hfin
      refine ⟨?_, pathOf_head node, hlast, hch⟩
      exact (tupleHash_injective _ _ (by simpa [pyEq] using heq)).symm

/-- Witness for C6 at a trivial successful search where start equals goal. -/
theorem c6_path_reconstruction_witness :
    (mkBoard [0, 1, 2, 3, 4, 5, 6, 7, 8]).prev_state = none
      ∧ shape3 (mkBoard [0, 1, 2, 3, 4, 5, 6, 7, 8]).matrix
      ∧ a_sharp_search 1 (mkBoard [0, 1, 2, 3, 4, 5, 6, 7, 8])
          (mkBoard [0, 1, 2, 3, 4, 5, 6, 7, 8])
        = (.found (.mk (matrixOf [0, 1, 2, 3, 4, 5, 6, 7, 8]) (Int.ofNat 0)
            (some (matrixOf [0, 1, 2, 3, 4, 5, 6, 7, 8])) none), [])
      ∧ ((EFPState.mk (matrixOf [0, 1, 2, 3, 4, 5, 6, 7, 8]) (Int.ofNat 0)
            (some (matrixOf [0, 1, 2, 3, 4, 5, 6, 7, 8])) none).to_sequence
          = (mkBoard [0, 1, 2, 3, 4, 5, 6, 7, 8]).to_sequence
        ∧ (∃ t, (EFPState.mk (matrixOf [0, 1, 2, 3, 4, 5, 6, 7, 8]) (Int.ofNat 0)
            (some (matrixOf [0, 1, 2, 3, 4, 5, 6, 7, 8])) none).pathOf
          = (EFPState.mk (matrixOf [0, 1, 2, 3, 4, 5, 6, 7, 8]) (Int.ofNat 0)
            (some (matrixOf [0, 1, 2, 3, 4, 5, 6, 7, 8])) none).matrix :: t)
        ∧ (EFPState.mk (matrixOf [0, 1, 2, 3, 4, 5, 6, 7, 8]) (Int.ofNat 0)
            (some (matrixOf [0, 1, 2, 3, 4, 5, 6, 7, 8])) none).pathOf.getLast?
          = some (mkBoard [0, 1, 2, 3, 4, 5, 6, 7, 8]).matrix
        ∧ (EFPState.mk (matrixOf [0, 1, 2, 3, 4, 5, 6, 7, 8]) (Int.ofNat 0)
            (some (matrixOf [0, 1, 2, 3, 4, 5, 6, 7, 8])) none).pathOf.Chain'
          (fun a b => slideRel b a)) :=
  ⟨rfl, by decide, rfl,
    c6_path_reconstruction 1 (mkBoard [0, 1, 2, 3, 4, 5, 6, 7, 8])
      (mkBoard [0, 1, 2, 3, 4, 5, 6, 7, 8]) _ [] rfl (by decide) rfl⟩

/-! ### Termination of the search loop -/

/-- Base-9 encoding of a digit sequence, used to bound the number of distinct
boards. -/
def encode9 : List Nat → Nat
  | [] => 0
  | d :: t => d + 9 * encode9 t

theorem encode9_lt {l : List Nat} (h : ∀ x ∈ l, x < 9) :
    encode9 l < 9 ^ l.length := by
  induction l with
  | nil => simp [encode9]
  | cons d t ih =>
    have hd : d < 9 := h d (by simp)
    have ht := ih fun x hx => h x (by simp [hx])
    simp only [encode9, List.length_cons, pow_succ]
    omega

theorem encode9_inj : ∀ l1 l2 : List Nat, l1.length = l2.length →
    (∀ x ∈ l1, x < 9) → (∀ x ∈ l2, x < 9) → encode9 l1 = encode9 l2 →
    l1 = l2 := by
  intro l1
  induction l1 with
  | nil =>
    intro l2 hl _ _ _
    cases l2 with
    | nil => rfl
    | cons d2 t2 => simp at hl
  | cons d t ih =>
    intro l2 hl h1 h2 he
    cases l2 with
    | nil => simp at hl
    | cons d2 t2 =>
      have hd : d < 9 := h1 d (by simp)
      have hd2 : d2 < 9 := h2 d2 (by simp)
      simp only [encode9] at he
      have h3 : d = d2 := by omega
      have h4 : encode9 t = encode9 t2 := by omega
      subst h3
      rw [ih t2 (by simpa using hl) (fun x hx => h1 x (by simp [hx]))
        (fun x hx => h2 x (by simp [hx])) h4]

theorem nodup_length_le {L : List Nat} {N : Nat} (hnd : L.Nodup)
    (hlt : ∀ x ∈ L, x < N) : L.length ≤ N := by
  have h1 : L.toFinset.card = L.length := List.toFinset_card_of_nodup hnd
  have h2 : L.toFinset ⊆ Finset.range N := by
    intro x hx
    rw [Finset.mem_range]
    exact hlt x (List.mem_toFinset.mp hx)
  calc L.length = L.toFinset.card := h1.symm
    _ ≤ (Finset.range N).card := Finset.card_le_card h2
    _ = N := Finset.card_range N

/-- A well-formed flat board sequence: nine cells, each value below nine. -/
def wfSeq (l : List Nat) : Prop :=
  l.length = 9 ∧ ∀ x ∈ l, x < 9

theorem wf_visited_bound {L : List (List Nat)} (hw : ∀ l ∈ L, wfSeq l)
    (hnd : L.Nodup) : L.length ≤ 9 ^ 9 := by
  have hmapnd : (L.map encode9).Nodup := by
    refine List.Nodup.map_on ?_ hnd
    intro x hx y hy hxy
    exact encode9_inj x y ((hw x hx).1.trans (hw y hy).1.symm) (hw x hx).2
      (hw y hy).2 hxy
  have hlt : ∀ e ∈ L.map encode9, e < 9 ^ 9 := by
    intro e he
    rw [List.mem_map] at he
    obtain ⟨l, hl, rfl⟩ := he
    have hb := encode9_lt (hw l hl).2
    rw [(hw l hl).1] at hb
    exact hb
  have hfin := nodup_length_le hmapnd hlt
  simpa using hfin

theorem swapFlat_values {s : List Nat} (hv : ∀ x ∈ s, x < 9) (i j : Nat) :
    ∀ x ∈ swapFlat s i j, x < 9 := by
  have hgetD : ∀ k : Nat, s.getD k 0 < 9 := by
    intro k
    by_cases hk : k < s.length
    · exact hv _ (getD_mem hk)
    · rw [List.getD_eq_default _ _ (by omega)]
      omega
  intro x hx
  unfold swapFlat at hx
  rcases List.mem_or_eq_of_mem_set hx with hx | hx
  · rcases List.mem_or_eq_of_mem_set hx with hx | hx
    · exact hv x hx
    · subst hx
      exact hgetD j
  · subst hx
    exact hgetD i

/-- A state whose board is a well-shaped matrix holding values below nine. -/
def goodState (st : EFPState) : Prop :=
  matrixWf st ∧ ∀ x ∈ st.to_sequence, x < 9

theorem searchLoop_no_fuelOut (endSt : EFPState) (B : Nat)
    (hB : ∀ L : List (List Nat), (∀ l ∈ L, wfSeq l) → L.Nodup → L.length ≤ B) :
    ∀ (fuel : Nat) (visited : List (List Nat)) (frontier : List EFPState)
      (expanded exp2 : List (List Nat)) (out : SearchOutcome),
      (∀ st ∈ frontier, goodState st) →
      (∀ l ∈ visited, wfSeq l) →
      visited.Nodup →
      expanded.Sublist visited →
      5 * (B - visited.length) + frontier.length < fuel →
      searchLoop endSt fuel visited frontier expanded = (out, exp2) →
      out ≠ .fuelOut ∧ exp2.Nodup := by
  intro fuel
  induction fuel with
  | zero =>
    intro visited frontier expanded exp2 out _ _ _ _ hmeas _
    omega
  | succ fuel ih =>
    intro visited frontier expanded exp2 out hg hvw hvnd hsub hmeas h
    have hexpnd : expanded.Nodup := List.Nodup.sublist hsub hvnd
    unfold searchLoop at h
    cases hs : sortByDist frontier with
    | nil =>
      rw [hs] at h
      dsimp only at h
      simp only [Prod.mk.injEq] at h
      obtain ⟨h1, h2⟩ := h
      subst h1
      subst h2
      exact ⟨by simp, hexpnd⟩
    | cons current rest =>
      rw [hs] at h
      dsimp only at h
      have hperm := sortByDist_perm frontier
      rw [hs] at hperm
      have hflen : rest.length + 1 = frontier.length := by
        have := hperm.length_eq
        simpa using this
      have hcur : goodState current := hg current (hperm.subset (List.mem_cons_self _ _))
      have hrestg : ∀ st ∈ rest, goodState st := fun st hst =>
        hg st (hperm.subset (List.mem_cons_of_mem _ hst))
      by_cases hv : current.to_sequence ∈ visited
      · rw [if_pos hv] at h
        exact ih visited rest expanded exp2 out hrestg hvw hvnd hsub (by omega) h
      · rw [if_neg hv] at h
        have hnotexp : current.to_sequence ∉ expanded := fun hc => hv (hsub.subset hc)
        have hwfcur : wfSeq current.to_sequence := ⟨hcur.1.1, hcur.2⟩
        have hvw2 : ∀ l ∈ visited ++ [current.to_sequence], wfSeq l := by
          intro l hl
          rw [List.mem_append] at hl
          rcases hl with hl | hl
          · exact hvw l hl
          · rw [List.mem_singleton] at hl
            subst hl
            exact hwfcur
        have hvnd2 : (visited ++ [current.to_sequence]).Nodup := by
          rw [List.nodup_append]
          refine ⟨hvnd, by simp, ?_⟩
          intro a ha hb
          rw [List.mem_singleton] at hb
          subst hb
          exact hv ha
        have hcard : visited.length + 1 ≤ B := by
          have := hB (visited ++ [current.to_sequence]) hvw2 hvnd2
          simpa using this
        by_cases hgoal : pyEq current endSt = true
        · rw [if_pos hgoal] at h
          simp only [Prod.mk.injEq] at h
          obtain ⟨h1, h2⟩ := h
          subst h1
          subst h2
          exact ⟨by simp, hexpnd⟩
        · rw [if_neg hgoal] at h
          cases hex : current.extend with
          | error e =>
            rw [hex] at h
            simp only [Prod.mk.injEq] at h
            obtain ⟨h1, h2⟩ := h
            subst h1
            subst h2
            refine ⟨by simp, ?_⟩
            rw [List.nodup_append]
            refine ⟨hexpnd, by simp, ?_⟩
            intro a ha hb
            rw [List.mem_singleton] at hb
            subst hb
            exact hnotexp ha
          | ok succs =>
            rw [hex] at h
            obtain ⟨⟨hlen9, hmm2⟩, hvals⟩ := hcur
            have hsucc : succs.length ≤ 4 ∧ ∀ st ∈ succs, goodState st := by
              cases current with
              | mk m dd ee pp =>
                have hlen : (m.flatten : List Nat).length = 9 := hlen9
                have hm : m = matrixOf m.flatten := hmm2
                have hex2 : (EFPState.mk (matrixOf m.flatten) dd ee pp).extend
                    = .ok succs := by rw [← hm]; exact hex
                obtain ⟨hl4, hchar⟩ := extend_ok_char hlen dd ee pp hex2
                refine ⟨hl4, ?_⟩
                intro st hst
                obtain ⟨tg, _, hxm, _, _, _⟩ := hchar st hst
                have hswlen : (swapFlat m.flatten (posIn m.flatten 0) tg).length
                    = 9 := by simp [swapFlat, hlen]
                have hseq : st.to_sequence
                    = swapFlat m.flatten (posIn m.flatten 0) tg := by
                  show st.matrix.flatten = _
                  rw [hxm, matrixOf_flatten hswlen]
                constructor
                · constructor
                  · show st.to_sequence.length = 9
                    rw [hseq]
                    exact hswlen
                  · show st.matrix = matrixOf st.to_sequence
                    rw [hseq, hxm]
                · intro x hx
                  rw [hseq] at hx
                  exact swapFlat_values hvals _ _ x hx
            obtain ⟨hl4, hsgood⟩ := hsucc
            refine ih (visited ++ [current.to_sequence]) (rest ++ succs)
              (expanded ++ [current.to_sequence]) exp2 out ?_ hvw2 hvnd2
              ?_ ?_ h
            · intro st hst
              rw [List.mem_append] at hst
              rcases hst with hst | hst
              · exact hrestg st hst
              · exact hsgood st hst
            · exact List.Sublist.append hsub (List.Sublist.refl _)
            · simp only [List.length_append, List.length_cons,
                List.length_singleton]
              omega

/-- A step budget sufficient for any search from a well-formed board: five
steps per distinct board plus the initial frontier entry and one final pass. -/
def searchFuel : Nat := 5 * 9 ^ 9 + 2

/-- C4: for every valid start board (a permutation arranged as a 3x3 matrix)
and any goal, the search invocation terminates within the finite budget
searchFuel: the outcome is never fuel exhaustion, because the reachable state
space is finite and each board is expanded at most once, which the ghost
record of expanded boards witnesses by containing no duplicates. -/
theorem c4_termination (s g : EFPState) (hshape : shape3 s.matrix)
    (hperm : s.to_sequence.Perm (List.range 9)) :
    (a_sharp_search searchFuel s g).1 ≠ .fuelOut
      ∧ (a_sharp_search searchFuel s g).2.Nodup := by
  unfold a_sharp_search
  cases hsetup : search_setup s g with
  | error e => exact ⟨by simp, by simp⟩
  | ok start1 =>
    dsimp only
    by_cases hpar : ((count_inversions start1.to_sequence : Int)
        - (count_inversions g.to_sequence : Int)) % 2 ≠ 0
    · rw [if_pos hpar]
      exact ⟨by simp, by simp⟩
    · rw [if_neg hpar]
      have hm1 : start1.matrix = s.matrix := by
        unfold search_setup at hsetup
        cases hd : distanceM s.matrix g.matrix with
        | error e => rw [hd] at hsetup; cases hsetup
        | ok d =>
          rw [hd] at hsetup
          simp only [Except.map] at hsetup
          cases hsetup
          simp
      obtain ⟨hmx, hfl⟩ := shape3_eq_matrixOf hshape
      have hgood : goodState start1 := by
        refine ⟨⟨?_, ?_⟩, ?_⟩
        · show start1.matrix.flatten.length = 9
          rw [hm1]
          exact hfl
        · show start1.matrix = matrixOf start1.matrix.flatten
          rw [hm1]
          exact hmx
        · intro x hx
          have hseq : start1.to_sequence = s.to_sequence := by
            show start1.matrix.flatten = s.matrix.flatten
            rw [hm1]
          rw [hseq] at hx
          have hx9 := hperm.mem_iff.mp hx
          simpa using hx9
      have hres := searchLoop_no_fuelOut g (9 ^ 9)
        (fun L hw hnd => wf_visited_bound hw hnd) searchFuel [] [start1] []
        (searchLoop g searchFuel [] [start1] []).2
        (searchLoop g searchFuel [] [start1] []).1
        (by
          intro st hst
          rw [List.mem_singleton] at hst
          subst hst
          exact hgood)
        (by intro l hl; cases hl)
        List.nodup_nil
        (List.Sublist.refl [])
        (by
          show 5 * (9 ^ 9 - ([] : List (List Nat)).length)
              + [start1].length < searchFuel
          unfold searchFuel
          norm_num)
        rfl
      exact hres

/-- Witness for C4 at the demo boards of main. -/
theorem c4_termination_witness :
    shape3 (mkBoard [8, 3, 5, 4, 1, 0, 2, 6, 7]).matrix
      ∧ (mkBoard [8, 3, 5, 4, 1, 0, 2, 6, 7]).to_sequence.Perm (List.range 9)
      ∧ ((a_sharp_search searchFuel (mkBoard [8, 3, 5, 4, 1, 0, 2, 6, 7])
            (mkBoard [1, 2, 3, 4, 5, 0, 7, 8, 6])).1 ≠ .fuelOut
        ∧ (a_sharp_search searchFuel (mkBoard [8, 3, 5, 4, 1, 0, 2, 6, 7])
            (mkBoard [1, 2, 3, 4, 5, 0, 7, 8, 6])).2.Nodup) :=
  ⟨by decide, by decide,
    c4_termination (mkBoard [8, 3, 5, 4, 1, 0, 2, 6, 7])
      (mkBoard [1, 2, 3, 4, 5, 0, 7, 8, 6]) (by decide) (by decide)⟩
